import Mathlib

/-! Pontoon: reconstruction of simple Fluent messages

Shallow embedding of
`frontend/src/core/utils/fluent/getReconstructedSimpleMessage.js`.

JavaScript strings are embedded as Lean `String`s; the two string primitives
the function uses with the one-character needle `'\n'` (`indexOf`, `split`)
are embedded as functions on the character list.  The parser and the
serializer the function imports are arguments of the embedding.
-/

namespace Pontoon

/-! ## Data model -/

/-- The `id` node of an entry or of an attribute: `{ name }`. -/
structure Identifier where
  name : String
deriving DecidableEq

/-- An attribute node: `{ id, value }`. -/
structure Attribute where
  id : Identifier
  value : Option String
deriving DecidableEq

/-- A parsed entry: `{ type, id, value, attributes }`.  `type` is the node
type string (`'Message'`, `'Term'`); `attributes` may be absent. -/
structure Entry where
  type : String
  id : Identifier
  value : Option String
  attributes : Option (List Attribute)
deriving DecidableEq

/-- The error a parse of malformed source ends in. -/
inductive GrammarError where
  | grammarError : GrammarError
deriving DecidableEq

/-! ## String primitives -/

/-- Worker of `indexOf`: first position of `c` at or after offset `i`, else `-1`. -/
def indexOfFrom (c : Char) : List Char → Nat → Int
  | [], _ => -1
  | x :: xs, i => if x = c then (i : Int) else indexOfFrom c xs (i + 1)

/-- JavaScript `s.indexOf(c)` for a one-character needle. -/
def indexOf (s : String) (c : Char) : Int :=
  indexOfFrom c s.data 0

/-- Worker of `split` on character lists. -/
def splitChars (c : Char) : List Char → List (List Char)
  | [] => [[]]
  | x :: xs =>
    if x = c then [] :: splitChars c xs
    else
      match splitChars c xs with
      | [] => [[x]]
      | l :: ls => (x :: l) :: ls

/-- JavaScript `s.split(c)` for a one-character separator. -/
def split (s : String) (c : Char) : List String :=
  (splitChars c s.data).map String.mk

/-! ## The function -/

/-- Lines 11-17: the identifier, with the dash put back for a `Term`. -/
def key (message : Entry) : String :=
  if message.type = "Term" then "-" ++ message.id.name else message.id.name

/-- Line 19: `translation.indexOf('\n') > -1`. -/
def isMultilineTranslation (translation : String) : Bool :=
  decide (indexOf translation '\n' > -1)

/-- Lines 21-42: the text assembled from the parsed original and the translation. -/
def content (message : Entry) (translation : String) : String :=
  let key := key message
  match message.attributes with
  | some attributes =>
    if h : attributes.length = 1 then
      let attributeName := (attributes.get ⟨0, by omega⟩).id.name
      if isMultilineTranslation translation then
        (split translation '\n').foldl (fun content t => content ++ "\n        " ++ t)
          (key ++ " =\n    ." ++ attributeName ++ " =")
      else
        key ++ " =\n    ." ++ attributeName ++ " = " ++ translation
    else
      if isMultilineTranslation translation then
        (split translation '\n').foldl (fun content t => content ++ "\n    " ++ t)
          (key ++ " =")
      else
        key ++ " = " ++ translation
  | none =>
    if isMultilineTranslation translation then
      (split translation '\n').foldl (fun content t => content ++ "\n    " ++ t)
        (key ++ " =")
    else
      key ++ " = " ++ translation

/-- Lines 9-47, with the imported `parser.parseEntry` and
`serializer.serializeEntry` as arguments.  A parse that fails ends the call. -/
def getReconstructedSimpleMessage
    (parseEntry : String → Except GrammarError Entry)
    (serializeEntry : Entry → String)
    (original translation : String) : Except GrammarError String :=
  match parseEntry original with
  | .error err => .error err
  | .ok message =>
    match parseEntry (content message translation) with
    | .error err => .error err
    | .ok ast => .ok (serializeEntry ast)

/-! ## Parser and serializer

`./parser` and `./serializer` are the two modules the function imports; they
are not among the sources.  Every definition of this section is modelled from
the grammar subset of section 6 of the specification, on the lines of the
source text. -/

/-- First character of an identifier: `[A-Za-z]`. -/
def isIdentifierStart (c : Char) : Bool := c.isAlpha

/-- Further characters of an identifier: `[A-Za-z0-9_-]`. -/
def isIdentifierChar (c : Char) : Bool := c.isAlphanum || c == '_' || c == '-'

/-- The rest of `l` after the leading `p`, when `l` starts with `p`. -/
def strip : List Char → List Char → Option (List Char)
  | [], l => some l
  | _ :: _, [] => none
  | p :: ps, c :: cs => if p = c then strip ps cs else none

/-- The identifier `[A-Za-z][A-Za-z0-9_-]*` a line starts with, and what follows it. -/
def takeIdentifier : List Char → Option (List Char × List Char)
  | [] => none
  | c :: cs =>
    if isIdentifierStart c then
      some (c :: cs.takeWhile isIdentifierChar, cs.dropWhile isIdentifierChar)
    else none

/-- What follows an identifier: `" ="`, then the end of the line or `" "` and a value. -/
def parseAssignment (l : List Char) : Option (Option String) :=
  match strip [' ', '='] l with
  | none => none
  | some [] => some none
  | some (c :: r) =>
    match strip [' '] (c :: r) with
    | some (v :: vs) => some (some (String.mk (v :: vs)))
    | _ => none

/-- The production `identifier " =" [ " " value ]` on one line. -/
def parseNamed (l : List Char) : Option (String × Option String) :=
  match takeIdentifier l with
  | none => none
  | some (name, rest) =>
    match parseAssignment rest with
    | none => none
    | some v => some (String.mk name, v)

/-- The first line of an entry: the term sigil `-` if any (not kept in the
identifier), then the identifier and the assignment. -/
def parseHeader (l : List Char) : Option (String × String × Option String) :=
  match strip ['-'] l with
  | some r => (parseNamed r).map (fun nv => ("Term", nv))
  | none => (parseNamed l).map (fun nv => ("Message", nv))

/-- An attribute line starts with `"    ."`. -/
def attributeLine (l : List Char) : Option (List Char) :=
  strip [' ', ' ', ' ', ' ', '.'] l

/-- A continuation line of a block: `indent` spaces and then the text of the line. -/
def continuation (indent : Nat) (l : List Char) : Option String :=
  match strip (List.replicate indent ' ') l with
  | some (c :: cs) => some (String.mk (c :: cs))
  | _ => none

/-- A continuation line of the entry's own block value: indented by 4, and
not an attribute line. -/
def entryContinuation (l : List Char) : Option String :=
  match attributeLine l with
  | some _ => none
  | none => continuation 4 l

/-- The lines of a block, joined by line breaks. -/
def joinLines : List String → String
  | [] => ""
  | [l] => l
  | l :: m :: ls => l ++ "\n" ++ joinLines (m :: ls)

/-- The value a block of continuation lines stands for; no line, no value. -/
def blockValue : List String → Option String
  | [] => none
  | l :: ls => some (joinLines (l :: ls))

/-- The continuation lines of the entry's block value, and the lines after them. -/
def takeBlock : List (List Char) → List String × List (List Char)
  | [] => ([], [])
  | l :: ls =>
    match entryContinuation l with
    | some c => (c :: (takeBlock ls).1, (takeBlock ls).2)
    | none => ([], l :: ls)

/-- The lines after the entry's value, grouped: every line that is not a
continuation line of an attribute's block (indent 8) opens a group and takes
the continuation lines after it.  The first component holds the continuation
lines that come before any group. -/
def groupLines : List (List Char) → List String × List (List Char × List String)
  | [] => ([], [])
  | l :: ls =>
    match continuation 8 l with
    | some c => (c :: (groupLines ls).1, (groupLines ls).2)
    | none => ([], (l, (groupLines ls).1) :: (groupLines ls).2)

/-- The production `"    ." identifier " =" [ " " value ] [ block ]`: a block
is read only when the value is omitted on the assignment line. -/
def parseAttribute (g : List Char × List String) : Option Attribute :=
  match attributeLine g.1 with
  | none => none
  | some r =>
    match parseNamed r with
    | none => none
    | some (name, some v) => if g.2 = [] then some ⟨⟨name⟩, some v⟩ else none
    | some (name, none) => some ⟨⟨name⟩, blockValue g.2⟩

/-- Every group as an attribute. -/
def parseGroups : List (List Char × List String) → Option (List Attribute)
  | [] => some []
  | g :: gs =>
    match parseAttribute g with
    | none => none
    | some a =>
      match parseGroups gs with
      | none => none
      | some as => some (a :: as)

/-- The production `[ newline attribute ]*` on the lines after the entry's value. -/
def parseAttributes (ls : List (List Char)) : Option (List Attribute) :=
  match (groupLines ls).1 with
  | [] => parseGroups (groupLines ls).2
  | _ :: _ => none

/-- The entry the lines of a source text stand for. -/
def parseLines : List (List Char) → Option Entry
  | [] => none
  | hd :: tl =>
    match parseHeader hd with
    | none => none
    | some (type, name, some v) =>
      (parseAttributes tl).map (fun as => ⟨type, ⟨name⟩, some v, some as⟩)
    | some (type, name, none) =>
      (parseAttributes (takeBlock tl).2).map
        (fun as => ⟨type, ⟨name⟩, blockValue (takeBlock tl).1, some as⟩)

/-- Modelled from the spec: `parser.parseEntry` of the module `./parser`, which
is not among the sources.  It parses one standalone entry of the grammar subset
of section 6: `identifier " =" [ " " value ] [ newline attribute ]*` with the
term sigil `-` stripped from the identifier, attributes
`"    ." identifier " =" [ " " value ] [ block ]`, and a block value (value
omitted on the assignment line) whose continuation lines are indented by the
enclosing construct's indent + 4.  Text outside the subset is a `GrammarError`. -/
def parser.parseEntry (source : String) : Except GrammarError Entry :=
  match parseLines (splitChars '\n' source.data) with
  | none => .error .grammarError
  | some e => .ok e

/-- Concatenation of a list of texts. -/
def concat : List String → String
  | [] => ""
  | s :: ss => s ++ concat ss

/-- A value after `" ="`: nothing when absent, on the assignment line when it
has one line, else as a block of lines at the given indent. -/
def serializeValue (indent : String) : Option String → String
  | none => ""
  | some v =>
    if isMultilineTranslation v then
      concat ((split v '\n').map (fun l => "\n" ++ indent ++ l))
    else " " ++ v

/-- One attribute, on a line of its own at indent 4. -/
def serializeAttribute (a : Attribute) : String :=
  "\n    ." ++ a.id.name ++ " =" ++ serializeValue "        " a.value

/-- Modelled from the spec: `serializer.serializeEntry` of the module
`./serializer`, which is not among the sources.  It renders an entry in the
one canonical form of the grammar subset of section 6: the identifier (with
the sigil `-` for a term), `" ="`, the value, then the attributes. -/
def serializer.serializeEntry (e : Entry) : String :=
  (if e.type = "Term" then "-" else "") ++ e.id.name ++ " ="
    ++ serializeValue "    " e.value
    ++ concat ((e.attributes.getD []).map serializeAttribute)

/-! ## Well-formed entries and the lines of the canonical form -/

/-- The characters of a name match `[A-Za-z][A-Za-z0-9_-]*`. -/
def validIdentifier : List Char → Bool
  | [] => false
  | c :: cs => isIdentifierStart c && cs.all isIdentifierChar

/-- The sigil of an entry type in source text. -/
def sigil (type : String) : List Char :=
  if type = "Term" then ['-'] else []

/-- What the source has on an assignment line after `" ="` for a value read from that line. -/
def assignmentPart : Option String → List Char
  | none => []
  | some v => ' ' :: v.data

/-- A value read from an assignment line is not empty. -/
def nonEmptyValue : Option String → Prop
  | none => True
  | some v => v.data ≠ []

/-- The part of a value the canonical form puts on the assignment line: a
value of one line. -/
def inlineValue : Option String → Option String
  | none => none
  | some v => if '\n' ∈ v.data then none else some v

/-- The part of a value the canonical form puts in a block: the lines of a
value of several lines. -/
def blockLines : Option String → List (List Char)
  | none => []
  | some v => if '\n' ∈ v.data then splitChars '\n' v.data else []

/-- What the canonical form puts on the assignment line after `" ="`. -/
def inlinePart (v : Option String) : List Char :=
  assignmentPart (inlineValue v)

/-- The continuation lines the canonical form gives a value. -/
def valueLines (indent : List Char) (v : Option String) : List (List Char) :=
  (blockLines v).map (fun l => indent ++ l)

/-- The assignment line of an attribute in canonical form. -/
def attributeHeader (a : Attribute) : List Char :=
  [' ', ' ', ' ', ' ', '.'] ++ (a.id.name.data ++ [' ', '='] ++ inlinePart a.value)

/-- The lines of an attribute in canonical form. -/
def attributeLines (a : Attribute) : List (List Char) :=
  attributeHeader a :: valueLines (List.replicate 8 ' ') a.value

/-- The lines of an entry in canonical form. -/
def entryLines (e : Entry) : List (List Char) :=
  (sigil e.type ++ e.id.name.data ++ [' ', '='] ++ inlinePart e.value)
    :: (valueLines (List.replicate 4 ' ') e.value
        ++ ((e.attributes.getD []).map attributeLines).flatten)

/-- The text whose lines are the given ones. -/
def unlines : List (List Char) → List Char
  | [] => []
  | hd :: tl => hd ++ (tl.map (fun l => '\n' :: l)).flatten

/-- A value the parser can produce: every line has text, and no line of a
block of the entry itself (`entryLevel`) starts with `.`. -/
def wellFormedValue (entryLevel : Bool) : Option String → Prop
  | none => True
  | some v => ∀ l ∈ splitChars '\n' v.data,
      l ≠ [] ∧ (entryLevel = true → '\n' ∈ v.data → l.head? ≠ some '.')

/-- An attribute the parser can produce. -/
def wellFormedAttribute (a : Attribute) : Prop :=
  validIdentifier a.id.name.data = true ∧ wellFormedValue false a.value

/-- An entry the parser can produce. -/
def wellFormed (e : Entry) : Prop :=
  (e.type = "Message" ∨ e.type = "Term")
    ∧ validIdentifier e.id.name.data = true
    ∧ wellFormedValue true e.value
    ∧ ∃ as, e.attributes = some as ∧ ∀ a ∈ as, wellFormedAttribute a

/-- The entry the text built from a parsed original and a translation is the
canonical form of: the translation as the value of the one attribute, or as
the value of the entry with no attribute. -/
def intended (message : Entry) (translation : String) : Entry :=
  match message.attributes with
  | some [a] => ⟨message.type, message.id, none, some [⟨a.id, some translation⟩]⟩
  | _ => ⟨message.type, message.id, some translation, some []⟩

/-! ## Reading the translation back from the text built -/

/-- The characters of a text with every occurrence of `c` replaced by `r`. -/
def replaceChar (c : Char) (r : List Char) : List Char → List Char
  | [] => []
  | x :: xs => if x = c then r ++ replaceChar c r xs else x :: replaceChar c r xs

/-- The text `t` with every occurrence of the character `c` replaced by the text `r`. -/
def replaceAll (t : String) (c : Char) (r : String) : String :=
  String.mk (replaceChar c r.data t.data)

/-- A line without its first `n` characters. -/
def dropChars (n : Nat) (l : String) : String :=
  String.mk (l.data.drop n)

/-! ## The filters panel

`frontend/src/modules/search/components/FiltersPanel.js`: the computation of
the icon of the visibility switch in `FiltersPanelBase.render`, lines 106-142.
The constants `FILTERS_STATUS` and `FILTERS_EXTRA`, imported from `..`, are
arguments of the embedding. -/

/-- An object of type `{ [string]: boolean }`: its keys in the order of
`Object.keys`, each with its value. -/
abbrev Flags := List (String × Bool)

/-- The expression `Object.keys(o).filter(k => o[k])`. -/
def selectedKeys (o : Flags) : List String :=
  (o.map Prod.fst).filter (fun k => o.lookup k == some true)

/-- An element of `FILTERS_STATUS` or of `FILTERS_EXTRA`. -/
structure Filter where
  name : String
  slug : String
deriving DecidableEq

/-- An element of `props.tagsData`. -/
structure Tag where
  slug : String
  name : String
deriving DecidableEq

/-- An element of `props.authorsData`. -/
structure Author where
  email : String
  display_name : String
deriving DecidableEq

/-- The props lines 106-142 read. -/
structure Props where
  statuses : Flags
  extras : Flags
  tags : Flags
  authors : Flags
  authorsData : List Author
  tagsData : List Tag

/-- Line 106. -/
def selectedStatuses (props : Props) : List String := selectedKeys props.statuses

/-- Line 107. -/
def selectedExtras (props : Props) : List String := selectedKeys props.extras

/-- Line 108. -/
def selectedTags (props : Props) : List String := selectedKeys props.tags

/-- Line 109. -/
def selectedAuthors (props : Props) : List String := selectedKeys props.authors

/-- Lines 111-116. -/
def selectedFiltersCount (props : Props) : Nat :=
  (selectedExtras props).length + (selectedStatuses props).length
    + (selectedTags props).length + (selectedAuthors props).length

/-- Lines 118-142: the value of `filterIcon` when the element is returned. -/
def filterIcon (FILTERS_STATUS FILTERS_EXTRA : List Filter) (props : Props) : String :=
  let filterIcon := "all"
  if selectedFiltersCount props = 1 then
    let filterIcon :=
      match FILTERS_STATUS.find? (fun f => some f.slug == (selectedStatuses props)[0]?) with
      | some selectedStatus => selectedStatus.slug
      | none => filterIcon
    let filterIcon :=
      match FILTERS_EXTRA.find? (fun f => some f.slug == (selectedExtras props)[0]?) with
      | some selectedExtra => selectedExtra.slug
      | none => filterIcon
    let filterIcon :=
      match props.tagsData.find? (fun f => some f.slug == (selectedTags props)[0]?) with
      | some _ => "tag"
      | none => filterIcon
    let filterIcon :=
      match props.authorsData.find? (fun f => some f.email == (selectedAuthors props)[0]?) with
      | some _ => "author"
      | none => filterIcon
    filterIcon
  else filterIcon

/-! ## Lemmas on the string primitives -/

theorem indexOfFrom_neg_iff (c : Char) (l : List Char) (i : Nat) :
    indexOfFrom c l i > -1 ↔ c ∈ l := by
  induction l generalizing i with
  | nil => simp [indexOfFrom]
  | cons x xs ih =>
    unfold indexOfFrom
    by_cases h : x = c
    · subst h
      simp only [if_true, List.mem_cons, true_or, iff_true]
      omega
    · have h2 : ¬ c = x := fun e => h e.symm
      simp only [h, if_false, List.mem_cons, h2, false_or]
      exact ih (i + 1)

theorem isMultilineTranslation_iff (t : String) :
    isMultilineTranslation t = true ↔ '\n' ∈ t.data := by
  unfold isMultilineTranslation indexOf
  rw [decide_eq_true_iff]
  exact indexOfFrom_neg_iff '\n' t.data 0

theorem isMultilineTranslation_false_iff (t : String) :
    isMultilineTranslation t = false ↔ '\n' ∉ t.data := by
  rw [← isMultilineTranslation_iff]
  simp

theorem foldl_append_eq (sep : String) (ls : List String) (init : String) :
    ls.foldl (fun content t => content ++ sep ++ t) init
      = init ++ concat (ls.map (fun l => sep ++ l)) := by
  induction ls generalizing init with
  | nil => simp [concat]
  | cons l ls ih =>
    simp only [List.foldl_cons, List.map_cons, concat]
    rw [ih]
    simp [String.append_assoc]

/-- The text of the branch for exactly one attribute. -/
theorem content_one (message : Entry) (a : Attribute) (translation : String)
    (hattrs : message.attributes = some [a]) :
    content message translation =
      if '\n' ∈ translation.data then
        key message ++ " =\n    ." ++ a.id.name ++ " ="
          ++ concat ((split translation '\n').map (fun l => "\n        " ++ l))
      else
        key message ++ " =\n    ." ++ a.id.name ++ " = " ++ translation := by
  unfold content
  simp only [hattrs, List.length_singleton, dite_true]
  by_cases h : '\n' ∈ translation.data
  · rw [if_pos ((isMultilineTranslation_iff _).2 h), if_pos h, foldl_append_eq]
    rfl
  · rw [if_neg (by rw [isMultilineTranslation_iff]; exact h), if_neg h]
    rfl

/-- The text of the branch for no attribute list, none or several attributes. -/
theorem content_other (message : Entry) (translation : String)
    (hattrs : ∀ a, message.attributes ≠ some [a]) :
    content message translation =
      if '\n' ∈ translation.data then
        key message ++ " =" ++ concat ((split translation '\n').map (fun l => "\n    " ++ l))
      else
        key message ++ " = " ++ translation := by
  have hm : (if isMultilineTranslation translation = true then
        (split translation '\n').foldl (fun content t => content ++ "\n    " ++ t)
          (key message ++ " =")
      else key message ++ " = " ++ translation) =
      if '\n' ∈ translation.data then
        key message ++ " =" ++ concat ((split translation '\n').map (fun l => "\n    " ++ l))
      else
        key message ++ " = " ++ translation := by
    by_cases h : '\n' ∈ translation.data
    · rw [if_pos ((isMultilineTranslation_iff _).2 h), if_pos h, foldl_append_eq]
    · rw [if_neg (by rw [isMultilineTranslation_iff]; exact h), if_neg h]
  unfold content
  cases hA : message.attributes with
  | none => simpa using hm
  | some attrs =>
    have hlen : attrs.length ≠ 1 := by
      intro h1
      match attrs, h1 with
      | [a], _ => exact hattrs a hA
    simp only [hlen, dite_false]
    exact hm

theorem getReconstructedSimpleMessage_eq
    (parseEntry : String → Except GrammarError Entry) (serializeEntry : Entry → String)
    (original translation : String) (message : Entry)
    (hparse : parseEntry original = .ok message) :
    getReconstructedSimpleMessage parseEntry serializeEntry original translation
      = (parseEntry (content message translation)).map serializeEntry := by
  unfold getReconstructedSimpleMessage
  rw [hparse]
  dsimp only
  cases parseEntry (content message translation) <;> rfl

/-! ## Lemmas on `splitChars` -/

theorem splitChars_ne_nil (c : Char) (l : List Char) : splitChars c l ≠ [] := by
  induction l with
  | nil => simp [splitChars]
  | cons x xs ih =>
    unfold splitChars
    by_cases h : x = c
    · simp [h]
    · simp only [h, if_false]
      cases hs : splitChars c xs with
      | nil => simp
      | cons l ls => simp

theorem splitChars_cons_sep (c : Char) (l : List Char) :
    splitChars c (c :: l) = [] :: splitChars c l := by
  simp [splitChars]

theorem splitChars_cons_ne (c x : Char) (l p : List Char) (ps : List (List Char))
    (hx : x ≠ c) (hs : splitChars c l = p :: ps) :
    splitChars c (x :: l) = (x :: p) :: ps := by
  rw [splitChars, if_neg hx, hs]

theorem splitChars_of_not_mem (c : Char) (l : List Char) (h : c ∉ l) :
    splitChars c l = [l] := by
  induction l with
  | nil => rfl
  | cons x xs ih =>
    have hx : x ≠ c := fun e => h (by simp [e])
    have hxs : c ∉ xs := fun e => h (List.mem_cons_of_mem _ e)
    exact splitChars_cons_ne c x xs xs [] hx (ih hxs)

theorem splitChars_append_sep (c : Char) (x y : List Char) :
    splitChars c (x ++ c :: y) = splitChars c x ++ splitChars c y := by
  induction x with
  | nil => simp [splitChars]
  | cons a x ih =>
    by_cases h : a = c
    · subst h
      simp [splitChars, ih]
    · cases hs : splitChars c x with
      | nil => exact absurd hs (splitChars_ne_nil c x)
      | cons p ps =>
        rw [hs] at ih
        rw [List.cons_append, splitChars_cons_ne c a _ p (ps ++ splitChars c y) h ih,
          splitChars_cons_ne c a x p ps h hs]
        rfl

theorem splitChars_no_sep (c : Char) (t : List Char) :
    ∀ l ∈ splitChars c t, c ∉ l := by
  induction t with
  | nil => simp [splitChars]
  | cons x xs ih =>
    by_cases h : x = c
    · subst h
      rw [splitChars_cons_sep]
      intro l hl
      rcases List.mem_cons.1 hl with rfl | hl
      · simp
      · exact ih l hl
    · cases hs : splitChars c xs with
      | nil => exact absurd hs (splitChars_ne_nil c xs)
      | cons p ps =>
        rw [splitChars_cons_ne c x xs p ps h hs]
        rw [hs] at ih
        intro l hl
        rcases List.mem_cons.1 hl with rfl | hl
        · intro hc
          rcases List.mem_cons.1 hc with rfl | hc
          · exact h rfl
          · exact ih p (List.mem_cons_self _ _) hc
        · exact ih l (List.mem_cons_of_mem _ hl)

/-- The lines of a text made of a first line and further lines, each after a separator. -/
theorem splitChars_lines (c : Char) (h : List Char) (ls : List (List Char))
    (hh : c ∉ h) (hls : ∀ l ∈ ls, c ∉ l) :
    splitChars c (h ++ (ls.map (fun l => c :: l)).flatten) = h :: ls := by
  induction ls generalizing h with
  | nil => simpa using splitChars_of_not_mem c h hh
  | cons l ls ih =>
    simp only [List.map_cons, List.flatten_cons, List.cons_append]
    rw [splitChars_append_sep, splitChars_of_not_mem c h hh,
      ih l (hls l (List.mem_cons_self _ _)) (fun m hm => hls m (List.mem_cons_of_mem _ hm))]
    rfl

theorem concat_data (ss : List String) :
    (concat ss).data = (ss.map String.data).flatten := by
  induction ss with
  | nil => rfl
  | cons s ss ih => simp [concat, ih]

theorem joinLines_cons_cons (l m : String) (ls : List String) :
    joinLines (l :: m :: ls) = l ++ "\n" ++ joinLines (m :: ls) := rfl

theorem joinLines_data_cons (x : Char) (p : List Char) (ps : List String) :
    (joinLines (String.mk (x :: p) :: ps)).data = x :: (joinLines (String.mk p :: ps)).data := by
  cases ps with
  | nil => rfl
  | cons m ms => simp [joinLines_cons_cons]

/-- Joining the pieces of a split by the separator gives the text back. -/
theorem joinLines_split (t : String) : joinLines (split t '\n') = t := by
  apply String.ext
  unfold split
  have key : ∀ l : List Char,
      (joinLines ((splitChars '\n' l).map String.mk)).data = l := by
    intro l
    induction l with
    | nil => rfl
    | cons x xs ih =>
      by_cases h : x = '\n'
      · subst h
        rw [splitChars_cons_sep]
        cases hs : splitChars '\n' xs with
        | nil => exact absurd hs (splitChars_ne_nil _ xs)
        | cons q qs =>
          rw [hs] at ih
          simp only [List.map_cons, joinLines_cons_cons, String.data_append]
          simp only [List.map_cons] at ih
          rw [ih]
          rfl
      · cases hs : splitChars '\n' xs with
        | nil => exact absurd hs (splitChars_ne_nil _ xs)
        | cons q qs =>
          rw [splitChars_cons_ne '\n' x xs q qs h hs]
          rw [hs] at ih
          simp only [List.map_cons] at ih ⊢
          rw [joinLines_data_cons, ih]
  exact key t.data

/-! ## Lemmas on lines -/

theorem strip_append (p r : List Char) : strip p (p ++ r) = some r := by
  induction p with
  | nil => cases r <;> rfl
  | cons x xs ih => simp [strip, ih]

theorem strip_eq_some (p l r : List Char) (h : strip p l = some r) : l = p ++ r := by
  induction p generalizing l with
  | nil =>
    cases l <;> simp [strip] at h <;> simp [h]
  | cons x xs ih =>
    cases l with
    | nil => simp [strip] at h
    | cons c cs =>
      by_cases hx : x = c
      · subst hx
        simp only [strip, if_true] at h
        rw [ih cs h]
        rfl
      · simp [strip, hx] at h

theorem strip_eq_none_of_head (x c : Char) (xs cs : List Char) (h : x ≠ c) :
    strip (x :: xs) (c :: cs) = none := by
  simp [strip, h]

theorem isIdentifierChar_of_start (c : Char) (h : isIdentifierStart c = true) :
    isIdentifierChar c = true := by
  simp only [isIdentifierStart] at h
  simp [isIdentifierChar, Char.isAlphanum, h]

theorem validIdentifier_all (n : List Char) (h : validIdentifier n = true) :
    ∀ c ∈ n, isIdentifierChar c = true := by
  cases n with
  | nil => simp
  | cons c cs =>
    simp only [validIdentifier, Bool.and_eq_true, List.all_eq_true] at h
    intro x hx
    rcases List.mem_cons.1 hx with rfl | hx
    · exact isIdentifierChar_of_start _ h.1
    · exact h.2 x hx

theorem validIdentifier_no_newline (n : List Char) (h : validIdentifier n = true) :
    '\n' ∉ n := by
  intro hm
  have := validIdentifier_all n h _ hm
  exact absurd this (by decide)

/-- An identifier is read off the front of a line up to a character that
cannot continue it. -/
theorem takeIdentifier_append (n r : List Char) (h : validIdentifier n = true)
    (hr : r.head?.all (fun c => !isIdentifierChar c) = true) :
    takeIdentifier (n ++ r) = some (n, r) := by
  cases n with
  | nil => simp [validIdentifier] at h
  | cons c cs =>
    simp only [validIdentifier, Bool.and_eq_true, List.all_eq_true] at h
    have hr2 : r.takeWhile isIdentifierChar = [] ∧ r.dropWhile isIdentifierChar = r := by
      cases r with
      | nil => simp
      | cons x xs =>
        simp only [List.head?_cons, Option.all_some, Bool.not_eq_true'] at hr
        simp [List.takeWhile, List.dropWhile, hr]
    simp only [List.cons_append, takeIdentifier, h.1, if_true]
    rw [List.takeWhile_append_of_pos h.2, List.dropWhile_append_of_pos h.2, hr2.1, hr2.2]
    simp

theorem takeIdentifier_eq_some (l n r : List Char) (h : takeIdentifier l = some (n, r)) :
    validIdentifier n = true ∧ l = n ++ r
      ∧ r.head?.all (fun c => !isIdentifierChar c) = true := by
  cases l with
  | nil => simp [takeIdentifier] at h
  | cons c cs =>
    unfold takeIdentifier at h
    by_cases hc : isIdentifierStart c = true
    · simp only [hc, if_true, Option.some.injEq, Prod.mk.injEq] at h
      obtain ⟨h1, h2⟩ := h
      subst h1 h2
      refine ⟨?_, ?_, ?_⟩
      · simp only [validIdentifier, hc, Bool.true_and, List.all_eq_true]
        intro x hx
        exact (List.mem_takeWhile_imp hx)
      · simp [List.takeWhile_append_dropWhile]
      · cases hd : List.dropWhile isIdentifierChar cs with
        | nil => simp
        | cons x xs =>
          have := List.head_dropWhile_not isIdentifierChar cs (by simp [hd])
          simp only [hd, List.head_cons] at this
          simp [this]
    · simp [hc] at h

theorem parseAssignment_part (v : Option String) (hv : nonEmptyValue v) :
    parseAssignment ([' ', '='] ++ assignmentPart v) = some v := by
  cases v with
  | none => rfl
  | some x =>
    obtain ⟨d⟩ := x
    cases d with
    | nil => exact absurd rfl hv
    | cons c cs => simp [parseAssignment, assignmentPart, strip]

theorem parseAssignment_eq_some (l : List Char) (v : Option String)
    (h : parseAssignment l = some v) :
    l = [' ', '='] ++ assignmentPart v ∧ nonEmptyValue v := by
  unfold parseAssignment at h
  cases h1 : strip [' ', '='] l with
  | none => simp [h1] at h
  | some r =>
    have hl := strip_eq_some _ _ _ h1
    cases r with
    | nil =>
      simp only [h1, Option.some.injEq] at h
      subst h
      simpa [assignmentPart, nonEmptyValue] using hl
    | cons c r =>
      simp only [h1] at h
      cases h2 : strip [' '] (c :: r) with
      | none => simp [h2] at h
      | some w =>
        have hw := strip_eq_some _ _ _ h2
        cases w with
        | nil => simp [h2] at h
        | cons x xs =>
          simp only [h2, Option.some.injEq] at h
          subst h
          rw [hl, hw]
          simp [assignmentPart, nonEmptyValue]

theorem parseNamed_line (n : List Char) (v : Option String)
    (hn : validIdentifier n = true) (hv : nonEmptyValue v) :
    parseNamed (n ++ [' ', '='] ++ assignmentPart v) = some (String.mk n, v) := by
  unfold parseNamed
  rw [List.append_assoc, takeIdentifier_append n _ hn (by simp; decide)]
  simp only [parseAssignment_part v hv]

theorem parseNamed_eq_some (l : List Char) (name : String) (v : Option String)
    (h : parseNamed l = some (name, v)) :
    validIdentifier name.data = true
      ∧ l = name.data ++ [' ', '='] ++ assignmentPart v ∧ nonEmptyValue v := by
  unfold parseNamed at h
  cases h1 : takeIdentifier l with
  | none => simp [h1] at h
  | some nr =>
    obtain ⟨n, r⟩ := nr
    simp only [h1] at h
    cases h2 : parseAssignment r with
    | none => simp [h2] at h
    | some w =>
      simp only [h2, Option.some.injEq, Prod.mk.injEq] at h
      obtain ⟨hn, hw⟩ := h
      subst hn hw
      obtain ⟨a1, a2, _⟩ := takeIdentifier_eq_some l n r h1
      obtain ⟨b1, b2⟩ := parseAssignment_eq_some r w h2
      refine ⟨a1, ?_, b2⟩
      rw [a2, b1]
      simp

theorem parseNamed_append (n r : List Char) (hn : validIdentifier n = true) :
    parseNamed (n ++ ' ' :: r)
      = (parseAssignment (' ' :: r)).map (fun v => (String.mk n, v)) := by
  unfold parseNamed
  rw [takeIdentifier_append n _ hn (by simp; decide)]
  dsimp only
  cases parseAssignment (' ' :: r) <;> rfl

theorem strip_dash_identifier (n r : List Char) (hn : validIdentifier n = true) :
    strip ['-'] (n ++ r) = none := by
  cases n with
  | nil => simp [validIdentifier] at hn
  | cons c cs =>
    simp only [validIdentifier, Bool.and_eq_true] at hn
    have hc : '-' ≠ c := by
      intro e
      rw [← e] at hn
      exact absurd hn.1 (by decide)
    exact strip_eq_none_of_head _ _ _ _ hc

/-- The header line of a well-named entry is read as its type and name. -/
theorem parseHeader_key (type : String) (n r : List Char)
    (ht : type = "Message" ∨ type = "Term") (hn : validIdentifier n = true) :
    parseHeader (sigil type ++ n ++ ' ' :: r)
      = (parseAssignment (' ' :: r)).map (fun v => (type, String.mk n, v)) := by
  unfold parseHeader
  rcases ht with rfl | rfl
  · have hs : sigil "Message" = [] := by decide
    rw [hs, List.nil_append, strip_dash_identifier n _ hn]
    simp only [parseNamed_append n r hn]
    cases parseAssignment (' ' :: r) <;> rfl
  · have hs : sigil "Term" = ['-'] := by decide
    rw [hs, List.append_assoc, strip_append]
    simp only [parseNamed_append n r hn]
    cases parseAssignment (' ' :: r) <;> rfl

theorem parseHeader_eq_some (l : List Char) (type name : String) (v : Option String)
    (h : parseHeader l = some (type, name, v)) :
    (type = "Message" ∨ type = "Term") ∧ validIdentifier name.data = true
      ∧ l = sigil type ++ name.data ++ [' ', '='] ++ assignmentPart v ∧ nonEmptyValue v := by
  unfold parseHeader at h
  cases h1 : strip ['-'] l with
  | some r =>
    simp only [h1] at h
    cases h2 : parseNamed r with
    | none => simp [h2] at h
    | some nv =>
      obtain ⟨n, w⟩ := nv
      simp only [h2, Option.map_some', Option.some.injEq, Prod.mk.injEq] at h
      obtain ⟨ht, hn, hw⟩ := h
      subst ht hn hw
      obtain ⟨a1, a2, a3⟩ := parseNamed_eq_some r n w h2
      refine ⟨Or.inr rfl, a1, ?_, a3⟩
      rw [strip_eq_some _ _ _ h1, a2]
      have hs : sigil "Term" = ['-'] := by decide
      rw [hs]
      simp
  | none =>
    simp only [h1] at h
    cases h2 : parseNamed l with
    | none => simp [h2] at h
    | some nv =>
      obtain ⟨n, w⟩ := nv
      simp only [h2, Option.map_some', Option.some.injEq, Prod.mk.injEq] at h
      obtain ⟨ht, hn, hw⟩ := h
      subst ht hn hw
      obtain ⟨a1, a2, a3⟩ := parseNamed_eq_some l n w h2
      refine ⟨Or.inl rfl, a1, ?_, a3⟩
      have hs : sigil "Message" = [] := by decide
      rw [hs, a2]
      simp

theorem continuation_indent (k : Nat) (l : List Char) (hl : l ≠ []) :
    continuation k (List.replicate k ' ' ++ l) = some (String.mk l) := by
  unfold continuation
  rw [strip_append]
  cases l with
  | nil => exact absurd rfl hl
  | cons c cs => rfl

theorem continuation_eq_some (k : Nat) (l : List Char) (c : String)
    (h : continuation k l = some c) :
    c.data ≠ [] ∧ l = List.replicate k ' ' ++ c.data := by
  unfold continuation at h
  cases h1 : strip (List.replicate k ' ') l with
  | none => simp [h1] at h
  | some r =>
    cases r with
    | nil => simp [h1] at h
    | cons x xs =>
      simp only [h1, Option.some.injEq] at h
      subst h
      exact ⟨by simp, strip_eq_some _ _ _ h1⟩

theorem continuation_eq_none (k : Nat) (l : List Char)
    (h : continuation k (List.replicate k ' ' ++ l) = none) : l = [] := by
  cases l with
  | nil => rfl
  | cons c cs => rw [continuation_indent k _ (by simp)] at h; exact absurd h (by simp)

theorem attributeLine_eq_some (l r : List Char) (h : attributeLine l = some r) :
    l = [' ', ' ', ' ', ' ', '.'] ++ r :=
  strip_eq_some _ _ _ h

theorem attributeLine_dot (r : List Char) :
    attributeLine ([' ', ' ', ' ', ' ', '.'] ++ r) = some r :=
  strip_append _ r

theorem attributeLine_indent4 (l : List Char) (hl : l.head? ≠ some '.') :
    attributeLine (List.replicate 4 ' ' ++ l) = none := by
  cases l with
  | nil => rfl
  | cons c cs =>
    have hc : ¬ '.' = c := by
      intro e
      apply hl
      rw [← e]
      rfl
    simp [attributeLine, List.replicate, strip, hc]

theorem attributeLine_indent8 (l : List Char) :
    attributeLine (List.replicate 8 ' ' ++ l) = none := by
  simp [attributeLine, List.replicate, strip]

theorem continuation8_dot (r : List Char) :
    continuation 8 ([' ', ' ', ' ', ' ', '.'] ++ r) = none := by
  simp [continuation, List.replicate, strip]

theorem entryContinuation_indent (l : List Char) (hl : l ≠ []) (hd : l.head? ≠ some '.') :
    entryContinuation (List.replicate 4 ' ' ++ l) = some (String.mk l) := by
  unfold entryContinuation
  rw [attributeLine_indent4 l hd]
  exact continuation_indent 4 l hl

theorem entryContinuation_eq_some (l : List Char) (c : String)
    (h : entryContinuation l = some c) :
    c.data ≠ [] ∧ c.data.head? ≠ some '.' ∧ l = List.replicate 4 ' ' ++ c.data := by
  unfold entryContinuation at h
  cases h1 : attributeLine l with
  | some r => simp [h1] at h
  | none =>
    simp only [h1] at h
    obtain ⟨a1, a2⟩ := continuation_eq_some 4 l c h
    refine ⟨a1, ?_, a2⟩
    intro hd
    cases hc : c.data with
    | nil => exact a1 hc
    | cons x xs =>
      rw [hc] at hd a2
      simp only [List.head?_cons, Option.some.injEq] at hd
      subst hd
      rw [a2] at h1
      exact absurd h1 (by simp [attributeLine, List.replicate, strip])

theorem entryContinuation_dot (r : List Char) :
    entryContinuation ([' ', ' ', ' ', ' ', '.'] ++ r) = none := by
  unfold entryContinuation
  rw [attributeLine_dot]

theorem entryContinuation_indent_nil :
    entryContinuation (List.replicate 4 ' ') = none := by
  decide

theorem takeBlock_lines (ls rest : List (List Char))
    (hls : ∀ l ∈ ls, l ≠ [] ∧ l.head? ≠ some '.')
    (hrest : ∀ r ∈ rest.head?, entryContinuation r = none) :
    takeBlock (ls.map (fun l => List.replicate 4 ' ' ++ l) ++ rest)
      = (ls.map String.mk, rest) := by
  induction ls with
  | nil =>
    cases rest with
    | nil => rfl
    | cons r rs =>
      have hr := hrest r (by simp)
      simp [takeBlock, hr]
  | cons l ls ih =>
    have h1 := hls l (List.mem_cons_self _ _)
    have ih2 := ih (fun m hm => hls m (List.mem_cons_of_mem _ hm))
    have e : ∀ t : List (List Char), takeBlock ((List.replicate 4 ' ' ++ l) :: t)
        = (String.mk l :: (takeBlock t).1, (takeBlock t).2) := by
      intro t
      rw [takeBlock, entryContinuation_indent l h1.1 h1.2]
    rw [List.map_cons, List.cons_append, e, ih2]
    rfl

theorem takeBlock_fst (ls : List (List Char)) :
    ∀ c ∈ (takeBlock ls).1, ∃ l ∈ ls, entryContinuation l = some c := by
  induction ls with
  | nil => simp [takeBlock]
  | cons l ls ih =>
    unfold takeBlock
    cases h : entryContinuation l with
    | none => simp
    | some d =>
      intro c hc
      simp only [List.mem_cons] at hc
      rcases hc with rfl | hc
      · exact ⟨l, List.mem_cons_self _ _, h⟩
      · obtain ⟨m, hm, hm2⟩ := ih c hc
        exact ⟨m, List.mem_cons_of_mem _ hm, hm2⟩

theorem takeBlock_snd (ls : List (List Char)) :
    ∀ l ∈ (takeBlock ls).2, l ∈ ls := by
  induction ls with
  | nil => simp [takeBlock]
  | cons l ls ih =>
    unfold takeBlock
    cases h : entryContinuation l with
    | none => simp
    | some d =>
      intro m hm
      exact List.mem_cons_of_mem _ (ih m hm)

theorem groupLines_block (ls rest : List (List Char)) (hls : ∀ l ∈ ls, l ≠ []) :
    groupLines (ls.map (fun l => List.replicate 8 ' ' ++ l) ++ rest)
      = (ls.map String.mk ++ (groupLines rest).1, (groupLines rest).2) := by
  induction ls with
  | nil => simp
  | cons l ls ih =>
    have ih2 := ih (fun m hm => hls m (List.mem_cons_of_mem _ hm))
    have e : ∀ t : List (List Char), groupLines ((List.replicate 8 ' ' ++ l) :: t)
        = (String.mk l :: (groupLines t).1, (groupLines t).2) := by
      intro t
      rw [groupLines, continuation_indent 8 l (hls l (List.mem_cons_self _ _))]
    rw [List.map_cons, List.cons_append, e, ih2]
    rfl

theorem groupLines_fst (ls : List (List Char)) :
    ∀ c ∈ (groupLines ls).1, ∃ l ∈ ls, continuation 8 l = some c := by
  induction ls with
  | nil => simp [groupLines]
  | cons l ls ih =>
    unfold groupLines
    cases h : continuation 8 l with
    | none => simp
    | some d =>
      intro c hc
      simp only [List.mem_cons] at hc
      rcases hc with rfl | hc
      · exact ⟨l, List.mem_cons_self _ _, h⟩
      · obtain ⟨m, hm, hm2⟩ := ih c hc
        exact ⟨m, List.mem_cons_of_mem _ hm, hm2⟩

theorem groupLines_snd (ls : List (List Char)) :
    ∀ g ∈ (groupLines ls).2,
      g.1 ∈ ls ∧ ∀ c ∈ g.2, ∃ l ∈ ls, continuation 8 l = some c := by
  induction ls with
  | nil => simp [groupLines]
  | cons l ls ih =>
    unfold groupLines
    cases h : continuation 8 l with
    | none =>
      intro g hg
      simp only [List.mem_cons] at hg
      rcases hg with rfl | hg
      · refine ⟨List.mem_cons_self _ _, ?_⟩
        intro c hc
        obtain ⟨m, hm, hm2⟩ := groupLines_fst ls c hc
        exact ⟨m, List.mem_cons_of_mem _ hm, hm2⟩
      · obtain ⟨a1, a2⟩ := ih g hg
        refine ⟨List.mem_cons_of_mem _ a1, ?_⟩
        intro c hc
        obtain ⟨m, hm, hm2⟩ := a2 c hc
        exact ⟨m, List.mem_cons_of_mem _ hm, hm2⟩
    | some d =>
      intro g hg
      obtain ⟨a1, a2⟩ := ih g hg
      refine ⟨List.mem_cons_of_mem _ a1, ?_⟩
      intro c hc
      obtain ⟨m, hm, hm2⟩ := a2 c hc
      exact ⟨m, List.mem_cons_of_mem _ hm, hm2⟩

/-! ## The canonical form is read back -/

theorem wellFormedValue_inline (b : Bool) (v : Option String) (h : wellFormedValue b v) :
    nonEmptyValue (inlineValue v) := by
  cases v with
  | none => trivial
  | some x =>
    unfold inlineValue
    by_cases hx : '\n' ∈ x.data
    · simp only [hx, if_true]
      trivial
    · simp only [hx, if_false]
      have := h x.data (by rw [splitChars_of_not_mem _ _ hx]; simp)
      exact this.1

theorem wellFormedValue_block (b : Bool) (v : Option String) (h : wellFormedValue b v) :
    ∀ l ∈ blockLines v, l ≠ [] ∧ (b = true → l.head? ≠ some '.') := by
  cases v with
  | none => simp [blockLines]
  | some x =>
    unfold blockLines
    by_cases hx : '\n' ∈ x.data
    · simp only [hx, if_true]
      intro l hl
      exact ⟨(h l hl).1, fun hb => (h l hl).2 hb hx⟩
    · simp [hx]

theorem inlineValue_eq_some (v : Option String) (x : String) (h : inlineValue v = some x) :
    v = some x ∧ blockLines v = [] := by
  cases v with
  | none => simp [inlineValue] at h
  | some y =>
    unfold inlineValue at h
    by_cases hy : '\n' ∈ y.data
    · simp [hy] at h
    · simp only [hy, if_false, Option.some.injEq] at h
      subst h
      simp [blockLines, hy]

theorem blockValue_blockLines (v : Option String) (h : inlineValue v = none) :
    blockValue ((blockLines v).map String.mk) = v := by
  cases v with
  | none => rfl
  | some y =>
    unfold inlineValue at h
    by_cases hy : '\n' ∈ y.data
    · simp only [blockLines, hy, if_true]
      have hj := joinLines_split y
      unfold split at hj
      cases hs : splitChars '\n' y.data with
      | nil => exact absurd hs (splitChars_ne_nil _ _)
      | cons q qs =>
        rw [hs] at hj
        simp only [List.map_cons] at hj ⊢
        simp only [blockValue, hj]
    · simp [hy] at h

theorem parseAttribute_canonical (a : Attribute) (h : wellFormedAttribute a) :
    parseAttribute (attributeHeader a, (blockLines a.value).map String.mk) = some a := by
  obtain ⟨h1, h2⟩ := h
  unfold parseAttribute attributeHeader
  simp only [attributeLine_dot]
  rw [inlinePart, parseNamed_line _ _ h1 (wellFormedValue_inline _ _ h2)]
  obtain ⟨⟨n⟩, v⟩ := a
  cases hv : inlineValue v with
  | none =>
    simp only [hv]
    rw [blockValue_blockLines v hv]
  | some x =>
    obtain ⟨e1, e2⟩ := inlineValue_eq_some v x hv
    subst e1
    simp only [hv, e2, List.map_nil, if_true]

theorem continuation8_attributeHeader (a : Attribute) :
    continuation 8 (attributeHeader a) = none :=
  continuation8_dot _

theorem groupLines_attributes (as : List Attribute) (h : ∀ a ∈ as, wellFormedAttribute a) :
    groupLines ((as.map attributeLines).flatten)
      = ([], as.map (fun a => (attributeHeader a, (blockLines a.value).map String.mk))) := by
  induction as with
  | nil => rfl
  | cons a as ih =>
    have ih2 := ih (fun b hb => h b (List.mem_cons_of_mem _ hb))
    have hb := wellFormedValue_block false a.value (h a (List.mem_cons_self _ _)).2
    simp only [List.map_cons, List.flatten_cons, attributeLines, List.cons_append]
    rw [groupLines, continuation8_attributeHeader]
    simp only [valueLines]
    rw [groupLines_block _ _ (fun l hl => (hb l hl).1), ih2]
    simp

theorem parseGroups_canonical (as : List Attribute) (h : ∀ a ∈ as, wellFormedAttribute a) :
    parseGroups (as.map (fun a => (attributeHeader a, (blockLines a.value).map String.mk)))
      = some as := by
  induction as with
  | nil => rfl
  | cons a as ih =>
    have ih2 := ih (fun b hb => h b (List.mem_cons_of_mem _ hb))
    simp only [List.map_cons, parseGroups,
      parseAttribute_canonical a (h a (List.mem_cons_self _ _)), ih2]

theorem parseAttributes_canonical (as : List Attribute)
    (h : ∀ a ∈ as, wellFormedAttribute a) :
    parseAttributes ((as.map attributeLines).flatten) = some as := by
  unfold parseAttributes
  rw [groupLines_attributes as h]
  exact parseGroups_canonical as h

theorem parseHeader_canonical (type : String) (n : List Char) (w : Option String)
    (ht : type = "Message" ∨ type = "Term") (hn : validIdentifier n = true)
    (hw : nonEmptyValue w) :
    parseHeader (sigil type ++ n ++ [' ', '='] ++ assignmentPart w)
      = some (type, String.mk n, w) := by
  have e : sigil type ++ n ++ [' ', '='] ++ assignmentPart w
      = sigil type ++ n ++ ' ' :: ('=' :: assignmentPart w) := by simp
  rw [e, parseHeader_key type n _ ht hn]
  have e2 : ' ' :: '=' :: assignmentPart w = [' ', '='] ++ assignmentPart w := rfl
  rw [e2, parseAssignment_part w hw]
  rfl

theorem attributes_head (as : List Attribute) :
    ∀ r ∈ ((as.map attributeLines).flatten).head?, entryContinuation r = none := by
  cases as with
  | nil => simp
  | cons a as =>
    intro r hr
    simp only [List.map_cons, List.flatten_cons, attributeLines, List.cons_append,
      List.head?_cons, Option.mem_def, Option.some.injEq] at hr
    subst hr
    exact entryContinuation_dot _

/-- Parsing the lines of the canonical form of a well-formed entry gives the entry. -/
theorem parseLines_entryLines (e : Entry) (h : wellFormed e) :
    parseLines (entryLines e) = some e := by
  obtain ⟨ht, hn, hv, as, has, hall⟩ := h
  obtain ⟨type, ⟨name⟩, v, attrs⟩ := e
  simp only at ht hn hv has hall
  subst has
  unfold entryLines parseLines
  simp only [Option.getD_some, inlinePart]
  rw [parseHeader_canonical type name.data _ ht hn (wellFormedValue_inline _ _ hv)]
  cases hi : inlineValue v with
  | some x =>
    obtain ⟨e1, e2⟩ := inlineValue_eq_some v x hi
    subst e1
    simp only [valueLines, e2, List.map_nil, List.nil_append,
      parseAttributes_canonical as hall, Option.map_some']
  | none =>
    have hb := wellFormedValue_block true v hv
    simp only [valueLines]
    rw [takeBlock_lines _ _ (fun l hl => ⟨(hb l hl).1, (hb l hl).2 rfl⟩) (attributes_head as)]
    simp only [parseAttributes_canonical as hall, blockValue_blockLines v hi, Option.map_some']

theorem splitChars_unlines (hd : List Char) (tl : List (List Char))
    (h : ∀ l ∈ hd :: tl, '\n' ∉ l) :
    splitChars '\n' (unlines (hd :: tl)) = hd :: tl :=
  splitChars_lines '\n' hd tl (h hd (List.mem_cons_self _ _))
    (fun l hl => h l (List.mem_cons_of_mem _ hl))

theorem serializeValue_data (indent : String) (v : Option String) :
    (serializeValue indent v).data
      = inlinePart v ++ ((valueLines indent.data v).map (fun l => '\n' :: l)).flatten := by
  cases v with
  | none => rfl
  | some x =>
    unfold serializeValue inlinePart inlineValue valueLines blockLines
    by_cases hx : '\n' ∈ x.data
    · simp only [(isMultilineTranslation_iff x).2 hx, hx, if_true, concat_data, split,
        assignmentPart, List.nil_append, List.map_map]
      congr 1
    · have hm : isMultilineTranslation x = false := (isMultilineTranslation_false_iff x).2 hx
      simp [hm, hx, assignmentPart]

theorem serializeAttribute_data (a : Attribute) :
    (serializeAttribute a).data = ((attributeLines a).map (fun l => '\n' :: l)).flatten := by
  unfold serializeAttribute attributeLines attributeHeader
  simp only [String.data_append, serializeValue_data, List.map_cons, List.flatten_cons]
  simp

theorem serializeEntry_data (e : Entry) :
    (serializer.serializeEntry e).data = unlines (entryLines e) := by
  unfold serializer.serializeEntry entryLines unlines sigil
  simp only [String.data_append, serializeValue_data, concat_data, List.map_map,
    List.map_append, List.flatten_append]
  have e1 : ((e.attributes.getD []).map (String.data ∘ serializeAttribute)).flatten
      = (((e.attributes.getD []).map attributeLines).flatten.map (fun l => '\n' :: l)).flatten := by
    induction e.attributes.getD [] with
    | nil => rfl
    | cons a as ih =>
      simp only [List.map_cons, List.flatten_cons, Function.comp, List.map_append,
        List.flatten_append, serializeAttribute_data]
      rw [← ih]
  rw [e1]
  by_cases ht : e.type = "Term"
  · simp [ht]
  · simp [ht]

theorem inlinePart_no_newline (v : Option String) : '\n' ∉ inlinePart v := by
  cases v with
  | none => simp [inlinePart, inlineValue, assignmentPart]
  | some x =>
    unfold inlinePart inlineValue
    by_cases hx : '\n' ∈ x.data
    · simp [hx, assignmentPart]
    · simp [hx, assignmentPart]

theorem valueLines_no_newline (indent : List Char) (hi : '\n' ∉ indent) (v : Option String) :
    ∀ l ∈ valueLines indent v, '\n' ∉ l := by
  cases v with
  | none => simp [valueLines, blockLines]
  | some x =>
    unfold valueLines blockLines
    by_cases hx : '\n' ∈ x.data
    · simp only [hx, if_true, List.mem_map, forall_exists_index, and_imp]
      intro l m hm hl
      subst hl
      simp only [List.mem_append, not_or]
      exact ⟨hi, splitChars_no_sep _ _ m hm⟩
    · simp [hx]

theorem attributeLines_no_newline (a : Attribute)
    (h : validIdentifier a.id.name.data = true) :
    ∀ l ∈ attributeLines a, '\n' ∉ l := by
  intro l hl
  unfold attributeLines at hl
  rcases List.mem_cons.1 hl with rfl | hl
  · unfold attributeHeader
    simp only [List.mem_append, not_or]
    exact ⟨by decide, ⟨validIdentifier_no_newline _ h, by decide⟩,
      inlinePart_no_newline _⟩
  · exact valueLines_no_newline _ (by decide) _ l hl

theorem entryLines_no_newline (e : Entry) (hn : validIdentifier e.id.name.data = true)
    (hall : ∀ a ∈ e.attributes.getD [], validIdentifier a.id.name.data = true) :
    ∀ l ∈ entryLines e, '\n' ∉ l := by
  intro l hl
  unfold entryLines at hl
  rcases List.mem_cons.1 hl with rfl | hl
  · simp only [List.mem_append, not_or]
    refine ⟨⟨⟨?_, validIdentifier_no_newline _ hn⟩, by decide⟩, inlinePart_no_newline _⟩
    unfold sigil
    split <;> decide
  · rcases List.mem_append.1 hl with hl | hl
    · exact valueLines_no_newline _ (by decide) _ l hl
    · simp only [List.mem_flatten, List.mem_map] at hl
      obtain ⟨ls, ⟨a, ha, rfl⟩, hl2⟩ := hl
      exact attributeLines_no_newline a (hall a ha) l hl2

theorem wellFormed_names (e : Entry) (h : wellFormed e) :
    validIdentifier e.id.name.data = true
      ∧ ∀ a ∈ e.attributes.getD [], validIdentifier a.id.name.data = true := by
  obtain ⟨_, hn, _, as, has, hall⟩ := h
  refine ⟨hn, ?_⟩
  rw [has]
  intro a ha
  exact (hall a ha).1

/-- The lines of the canonical form of an entry with valid names are its `entryLines`. -/
theorem splitChars_serializeEntry (e : Entry) (hn : validIdentifier e.id.name.data = true)
    (hall : ∀ a ∈ e.attributes.getD [], validIdentifier a.id.name.data = true) :
    splitChars '\n' (serializer.serializeEntry e).data = entryLines e := by
  rw [serializeEntry_data]
  have hl := entryLines_no_newline e hn hall
  unfold entryLines at hl ⊢
  exact splitChars_unlines _ _ hl

/-- Parsing the canonical form of a well-formed entry gives the entry back. -/
theorem parseEntry_serializeEntry (e : Entry) (h : wellFormed e) :
    parser.parseEntry (serializer.serializeEntry e) = .ok e := by
  unfold parser.parseEntry
  rw [splitChars_serializeEntry e (wellFormed_names e h).1 (wellFormed_names e h).2,
    parseLines_entryLines e h]

/-! ## What the parser returns is well formed -/

theorem joinLines_data (l : String) (ls : List String) :
    (joinLines (l :: ls)).data = unlines ((l :: ls).map String.data) := by
  induction ls generalizing l with
  | nil => simp [joinLines, unlines]
  | cons m ms ih =>
    rw [joinLines_cons_cons]
    simp only [String.data_append, ih m]
    simp [unlines]

theorem splitChars_joinLines (l : String) (ls : List String)
    (h : ∀ c ∈ l :: ls, '\n' ∉ c.data) :
    splitChars '\n' (joinLines (l :: ls)).data = (l :: ls).map String.data := by
  rw [joinLines_data]
  simp only [List.map_cons]
  apply splitChars_unlines
  intro x hx
  rw [← List.map_cons, List.mem_map] at hx
  obtain ⟨c, hc, rfl⟩ := hx
  exact h c hc

theorem wellFormedValue_of_line (b : Bool) (x : String) (h1 : x.data ≠ [])
    (h2 : '\n' ∉ x.data) : wellFormedValue b (some x) := by
  intro l hl
  rw [splitChars_of_not_mem _ _ h2] at hl
  simp only [List.mem_singleton] at hl
  subst hl
  exact ⟨h1, fun _ hn => absurd hn h2⟩

theorem wellFormedValue_blockValue (b : Bool) (cs : List String)
    (h : ∀ c ∈ cs, c.data ≠ [] ∧ '\n' ∉ c.data ∧ (b = true → c.data.head? ≠ some '.')) :
    wellFormedValue b (blockValue cs) := by
  cases cs with
  | nil => trivial
  | cons c cs =>
    intro l hl
    replace hl : l ∈ splitChars '\n' (joinLines (c :: cs)).data := hl
    rw [splitChars_joinLines c cs (fun d hd => (h d hd).2.1), List.mem_map] at hl
    obtain ⟨d, hd, rfl⟩ := hl
    exact ⟨(h d hd).1, fun hb _ => (h d hd).2.2 hb⟩

theorem continuation_no_newline (k : Nat) (l : List Char) (c : String)
    (h : continuation k l = some c) (hl : '\n' ∉ l) : '\n' ∉ c.data := by
  obtain ⟨_, e⟩ := continuation_eq_some k l c h
  rw [e] at hl
  exact fun hc => hl (List.mem_append_right _ hc)

theorem assignmentPart_no_newline (l : List Char) (w : Option String) (x : String)
    (hw : w = some x) (hl : '\n' ∉ l ++ assignmentPart w) : '\n' ∉ x.data := by
  subst hw
  intro hc
  apply hl
  simp [assignmentPart, hc]

theorem parseAttribute_wellFormed (g : List Char × List String) (a : Attribute)
    (h : parseAttribute g = some a) (h1 : '\n' ∉ g.1)
    (h2 : ∀ c ∈ g.2, c.data ≠ [] ∧ '\n' ∉ c.data) : wellFormedAttribute a := by
  unfold parseAttribute at h
  cases ha : attributeLine g.1 with
  | none => simp [ha] at h
  | some r =>
    simp only [ha] at h
    have hg := attributeLine_eq_some _ _ ha
    cases hp : parseNamed r with
    | none => simp [hp] at h
    | some nw =>
      obtain ⟨name, w⟩ := nw
      obtain ⟨p1, p2, p3⟩ := parseNamed_eq_some r name w hp
      cases w with
      | none =>
        simp only [hp, Option.some.injEq] at h
        subst h
        refine ⟨p1, wellFormedValue_blockValue false g.2 ?_⟩
        exact fun c hc => ⟨(h2 c hc).1, (h2 c hc).2, fun hb => absurd hb (by simp)⟩
      | some x =>
        simp only [hp] at h
        by_cases hb : g.2 = []
        · simp only [hb, if_true, Option.some.injEq] at h
          subst h
          refine ⟨p1, wellFormedValue_of_line false x p3 ?_⟩
          rw [hg, p2] at h1
          rw [← List.append_assoc] at h1
          exact assignmentPart_no_newline _ _ x rfl h1
        · simp [hb] at h

theorem parseGroups_mem (gs : List (List Char × List String)) (as : List Attribute)
    (h : parseGroups gs = some as) :
    ∀ a ∈ as, ∃ g ∈ gs, parseAttribute g = some a := by
  induction gs generalizing as with
  | nil =>
    simp only [parseGroups, Option.some.injEq] at h
    subst h
    simp
  | cons g gs ih =>
    unfold parseGroups at h
    cases h1 : parseAttribute g with
    | none => simp [h1] at h
    | some b =>
      simp only [h1] at h
      cases h2 : parseGroups gs with
      | none => simp [h2] at h
      | some bs =>
        simp only [h2, Option.some.injEq] at h
        subst h
        intro a ha
        rcases List.mem_cons.1 ha with rfl | ha
        · exact ⟨g, List.mem_cons_self _ _, h1⟩
        · obtain ⟨g2, hg2, e⟩ := ih bs h2 a ha
          exact ⟨g2, List.mem_cons_of_mem _ hg2, e⟩

theorem parseAttributes_wellFormed (ls : List (List Char)) (as : List Attribute)
    (h : parseAttributes ls = some as) (hl : ∀ l ∈ ls, '\n' ∉ l) :
    ∀ a ∈ as, wellFormedAttribute a := by
  unfold parseAttributes at h
  cases h1 : (groupLines ls).1 with
  | cons c cs => simp [h1] at h
  | nil =>
    simp only [h1] at h
    intro a ha
    obtain ⟨g, hg, e⟩ := parseGroups_mem _ _ h a ha
    obtain ⟨g1, g2⟩ := groupLines_snd ls g hg
    refine parseAttribute_wellFormed g a e (hl _ g1) ?_
    intro c hc
    obtain ⟨m, hm, hm2⟩ := g2 c hc
    exact ⟨(continuation_eq_some 8 m c hm2).1, continuation_no_newline 8 m c hm2 (hl m hm)⟩

/-- How a successful parse of the lines of a text is made up. -/
theorem parseLines_eq_some (hd : List Char) (tl : List (List Char)) (e : Entry)
    (h : parseLines (hd :: tl) = some e) :
    ∃ w as, parseHeader hd = some (e.type, e.id.name, w) ∧ e.attributes = some as
      ∧ ((∃ x, w = some x ∧ e.value = some x ∧ parseAttributes tl = some as)
        ∨ (w = none ∧ e.value = blockValue (takeBlock tl).1
            ∧ parseAttributes (takeBlock tl).2 = some as)) := by
  unfold parseLines at h
  cases hh : parseHeader hd with
  | none => simp [hh] at h
  | some r =>
    obtain ⟨type, name, w⟩ := r
    cases w with
    | some x =>
      simp only [hh] at h
      cases ha : parseAttributes tl with
      | none => simp [ha] at h
      | some as =>
        simp only [ha, Option.map_some', Option.some.injEq] at h
        subst h
        exact ⟨some x, as, rfl, rfl, Or.inl ⟨x, rfl, rfl, rfl⟩⟩
    | none =>
      simp only [hh] at h
      cases ha : parseAttributes (takeBlock tl).2 with
      | none => simp [ha] at h
      | some as =>
        simp only [ha, Option.map_some', Option.some.injEq] at h
        subst h
        exact ⟨none, as, rfl, rfl, Or.inr ⟨rfl, rfl, rfl⟩⟩

theorem parseLines_wellFormed (ls : List (List Char)) (e : Entry)
    (h : parseLines ls = some e) (hl : ∀ l ∈ ls, '\n' ∉ l) : wellFormed e := by
  cases ls with
  | nil => simp [parseLines] at h
  | cons hd tl =>
    obtain ⟨w, as, h1, h2, h3⟩ := parseLines_eq_some hd tl e h
    obtain ⟨p1, p2, p3, p4⟩ := parseHeader_eq_some hd _ _ w h1
    have htl : ∀ l ∈ tl, '\n' ∉ l := fun l hl2 => hl l (List.mem_cons_of_mem _ hl2)
    refine ⟨p1, p2, ?_, as, h2, ?_⟩
    · rcases h3 with ⟨x, hx, hv, _⟩ | ⟨_, hv, _⟩
      · rw [hv]
        subst hx
        refine wellFormedValue_of_line true x p4 ?_
        have := hl hd (List.mem_cons_self _ _)
        rw [p3] at this
        exact assignmentPart_no_newline _ _ x rfl this
      · rw [hv]
        apply wellFormedValue_blockValue
        intro c hc
        obtain ⟨m, hm, hm2⟩ := takeBlock_fst tl c hc
        obtain ⟨c1, c2, c3⟩ := entryContinuation_eq_some m c hm2
        refine ⟨c1, ?_, fun _ => c2⟩
        have := htl m hm
        rw [c3] at this
        exact fun hc2 => this (List.mem_append_right _ hc2)
    · rcases h3 with ⟨x, _, _, ha⟩ | ⟨_, _, ha⟩
      · exact parseAttributes_wellFormed tl as ha htl
      · exact parseAttributes_wellFormed _ as ha
          (fun l hl2 => htl l (takeBlock_snd tl l hl2))

/-- Every entry the parser returns is well formed. -/
theorem parseEntry_wellFormed (source : String) (e : Entry)
    (h : parser.parseEntry source = .ok e) : wellFormed e := by
  unfold parser.parseEntry at h
  cases hp : parseLines (splitChars '\n' source.data) with
  | none => simp [hp] at h
  | some e2 =>
    simp only [hp, Except.ok.injEq] at h
    subst h
    exact parseLines_wellFormed _ _ hp (splitChars_no_sep _ _)

/-- The canonical form of a parsed entry parses to the same entry. -/
theorem parseEntry_roundtrip (source : String) (e : Entry)
    (h : parser.parseEntry source = .ok e) :
    parser.parseEntry (serializer.serializeEntry e) = .ok e :=
  parseEntry_serializeEntry e (parseEntry_wellFormed source e h)

/-! ## A translation that ends in a line break -/

theorem split_trailing_newline (s : String) (hs : '\n' ∉ s.data) :
    split (s ++ "\n") '\n' = [s, ""] := by
  unfold split
  have e : (s ++ "\n").data = s.data ++ '\n' :: [] := by simp
  rw [e, splitChars_append_sep, splitChars_of_not_mem _ _ hs]
  rfl

theorem mem_trailing_newline (s : String) : '\n' ∈ (s ++ "\n").data := by
  simp

theorem split_getLast_of_suffix (x : String) (ind : String) (hi : '\n' ∉ ind.data) :
    (split (x ++ "\n" ++ ind) '\n').getLast? = some ind := by
  unfold split
  have e : (x ++ "\n" ++ ind).data = x.data ++ '\n' :: ind.data := by simp
  rw [e, splitChars_append_sep, splitChars_of_not_mem _ _ hi]
  simp

theorem content_one_trailing (message : Entry) (a : Attribute) (s : String)
    (hattrs : message.attributes = some [a]) (hs : '\n' ∉ s.data) :
    content message (s ++ "\n")
      = key message ++ " =\n    ." ++ a.id.name ++ " =" ++ "\n        " ++ s ++ "\n" ++ "        " := by
  rw [content_one message a _ hattrs, if_pos (mem_trailing_newline s),
    split_trailing_newline s hs]
  apply String.ext
  simp [concat]

theorem content_other_trailing (message : Entry) (s : String)
    (hattrs : ∀ a, message.attributes ≠ some [a]) (hs : '\n' ∉ s.data) :
    content message (s ++ "\n")
      = key message ++ " =" ++ "\n    " ++ s ++ "\n" ++ "    " := by
  rw [content_other message _ hattrs, if_pos (mem_trailing_newline s),
    split_trailing_newline s hs]
  apply String.ext
  simp [concat]

/-! ## The text built and the canonical form -/

theorem key_data (message : Entry) :
    (key message).data = sigil message.type ++ message.id.name.data := by
  unfold key sigil
  by_cases h : message.type = "Term"
  · simp [h]
  · simp [h]

theorem serializeValue_some (indent t : String) :
    serializeValue indent (some t)
      = if '\n' ∈ t.data then concat ((split t '\n').map (fun l => "\n" ++ indent ++ l))
        else " " ++ t := by
  show (if isMultilineTranslation t = true then _ else _) = _
  by_cases h : '\n' ∈ t.data
  · rw [if_pos ((isMultilineTranslation_iff _).2 h), if_pos h]
  · rw [if_neg (by rw [isMultilineTranslation_iff]; exact h), if_neg h]

theorem intended_one (message : Entry) (a : Attribute) (t : String)
    (h : message.attributes = some [a]) :
    intended message t = ⟨message.type, message.id, none, some [⟨a.id, some t⟩]⟩ := by
  unfold intended
  rw [h]

theorem intended_other (message : Entry) (t : String)
    (h : ∀ a, message.attributes ≠ some [a]) :
    intended message t = ⟨message.type, message.id, some t, some []⟩ := by
  unfold intended
  split
  · next a ha => exact absurd ha (h a)
  · rfl

/-- The text built is the canonical form of the intended entry. -/
theorem content_eq_serializeEntry (message : Entry) (t : String) :
    content message t = serializer.serializeEntry (intended message t) := by
  by_cases h1 : ∃ a, message.attributes = some [a]
  · obtain ⟨a, ha⟩ := h1
    rw [content_one message a t ha, intended_one message a t ha]
    unfold serializer.serializeEntry serializeAttribute
    simp only [Option.getD_some, List.map_cons, List.map_nil, concat, serializeValue_some]
    apply String.ext
    by_cases hn : '\n' ∈ t.data
    · simp [hn, key_data, sigil, serializeValue]
      split <;> simp
    · simp [hn, key_data, sigil, serializeValue]
      split <;> simp
  · have hne : ∀ a, message.attributes ≠ some [a] := fun a ha => h1 ⟨a, ha⟩
    rw [content_other message t hne, intended_other message t hne]
    unfold serializer.serializeEntry
    simp only [Option.getD_some, List.map_nil, concat, serializeValue_some]
    apply String.ext
    by_cases hn : '\n' ∈ t.data
    · simp [hn, key_data, sigil]
      split <;> simp
    · simp [hn, key_data, sigil]
      split <;> simp

theorem intended_type_id (message : Entry) (t : String) :
    (intended message t).type = message.type ∧ (intended message t).id = message.id := by
  unfold intended
  split <;> exact ⟨rfl, rfl⟩

theorem getReconstructedSimpleMessage_ok
    (parseEntry : String → Except GrammarError Entry) (serializeEntry : Entry → String)
    (original translation r : String) (message : Entry)
    (hparse : parseEntry original = .ok message)
    (hr : getReconstructedSimpleMessage parseEntry serializeEntry original translation
      = .ok r) :
    ∃ ast, parseEntry (content message translation) = .ok ast ∧ r = serializeEntry ast := by
  rw [getReconstructedSimpleMessage_eq _ _ _ _ _ hparse] at hr
  cases h2 : parseEntry (content message translation) with
  | error err =>
    rw [h2] at hr
    exact absurd hr (by simp [Except.map])
  | ok ast =>
    rw [h2] at hr
    simp only [Except.map, Except.ok.injEq] at hr
    exact ⟨ast, rfl, hr.symm⟩

theorem splitChars_unlines_head (hd : List Char) (tl : List (List Char))
    (h : '\n' ∉ hd) :
    ∃ ps, splitChars '\n' (unlines (hd :: tl)) = hd :: ps := by
  cases tl with
  | nil =>
    refine ⟨[], ?_⟩
    simp [unlines, splitChars_of_not_mem _ _ h]
  | cons l ls =>
    refine ⟨splitChars '\n' (l ++ (ls.map (fun m => '\n' :: m)).flatten), ?_⟩
    simp only [unlines, List.map_cons, List.flatten_cons, List.cons_append]
    rw [splitChars_append_sep, splitChars_of_not_mem _ _ h]
    rfl

/-- A text built from a parsed original parses, if at all, to an entry of the
type and the name of the original. -/
theorem parse_content_type_id (message ast : Entry) (t : String)
    (hm : wellFormed message)
    (h : parser.parseEntry (content message t) = .ok ast) :
    ast.type = message.type ∧ ast.id.name = message.id.name := by
  obtain ⟨ht, hn, _, _⟩ := hm
  obtain ⟨e1, e2⟩ := intended_type_id message t
  rw [content_eq_serializeEntry] at h
  unfold parser.parseEntry at h
  rw [serializeEntry_data] at h
  unfold entryLines at h
  rw [e1, e2] at h
  have hno : '\n' ∉ sigil message.type ++ message.id.name.data ++ [' ', '=']
      ++ inlinePart (intended message t).value := by
    simp only [List.mem_append, not_or]
    refine ⟨⟨⟨?_, validIdentifier_no_newline _ hn⟩, by decide⟩, inlinePart_no_newline _⟩
    unfold sigil
    split <;> decide
  obtain ⟨ps, hps⟩ := splitChars_unlines_head _
    (valueLines (List.replicate 4 ' ') (intended message t).value
      ++ (((intended message t).attributes.getD []).map attributeLines).flatten) hno
  rw [hps] at h
  cases hp : parseLines ((sigil message.type ++ message.id.name.data ++ [' ', '=']
      ++ inlinePart (intended message t).value) :: ps) with
  | none =>
    rw [hp] at h
    exact absurd h (by simp)
  | some e =>
    rw [hp] at h
    simp only [Except.ok.injEq] at h
    subst h
    obtain ⟨w, as, h1, _, _⟩ := parseLines_eq_some _ _ _ hp
    have e3 : sigil message.type ++ message.id.name.data ++ [' ', '=']
        ++ inlinePart (intended message t).value
        = sigil message.type ++ message.id.name.data
          ++ ' ' :: ('=' :: inlinePart (intended message t).value) := by simp
    rw [e3, parseHeader_key message.type message.id.name.data _ ht hn] at h1
    cases hq : parseAssignment (' ' :: '=' :: inlinePart (intended message t).value) with
    | none => simp [hq] at h1
    | some v =>
      simp only [hq, Option.map_some', Option.some.injEq, Prod.mk.injEq] at h1
      exact ⟨h1.1.symm, h1.2.1.symm⟩

theorem serializeEntry_term_head (e : Entry) (h : e.type = "Term") :
    (serializer.serializeEntry e).data.head? = some '-' := by
  unfold serializer.serializeEntry
  simp [h]

/-! ## Translations whose lines have text -/

theorem wellFormedValue_of_split (b : Bool) (t : String)
    (h : ∀ l ∈ split t '\n',
      l ≠ "" ∧ (b = true → '\n' ∈ t.data → l.data.head? ≠ some '.')) :
    wellFormedValue b (some t) := by
  intro l hl
  have hm : String.mk l ∈ split t '\n' := List.mem_map_of_mem _ hl
  obtain ⟨h1, h2⟩ := h _ hm
  refine ⟨?_, h2⟩
  intro e
  apply h1
  rw [e]

theorem wellFormed_intended_one (message : Entry) (a : Attribute) (t : String)
    (hm : wellFormed message) (ha : message.attributes = some [a])
    (ht : ∀ l ∈ split t '\n', l ≠ "") :
    wellFormed (intended message t) := by
  obtain ⟨h1, h2, _, as, h4, h5⟩ := hm
  rw [intended_one message a t ha]
  rw [ha] at h4
  simp only [Option.some.injEq] at h4
  subst h4
  refine ⟨h1, h2, trivial, _, rfl, ?_⟩
  intro b hb
  simp only [List.mem_singleton] at hb
  subst hb
  refine ⟨(h5 a (List.mem_singleton_self a)).1, ?_⟩
  exact wellFormedValue_of_split false t
    (fun l hl => ⟨ht l hl, fun hb => absurd hb (by simp)⟩)

theorem wellFormed_intended_other (message : Entry) (t : String)
    (hm : wellFormed message) (hne : ∀ a, message.attributes ≠ some [a])
    (ht : ∀ l ∈ split t '\n', l ≠ "" ∧ ('\n' ∈ t.data → l.data.head? ≠ some '.')) :
    wellFormed (intended message t) := by
  obtain ⟨h1, h2, _, _⟩ := hm
  rw [intended_other message t hne]
  refine ⟨h1, h2, ?_, [], rfl, by simp⟩
  exact wellFormedValue_of_split true t (fun l hl => ⟨(ht l hl).1, fun _ => (ht l hl).2⟩)

/-- When the intended entry is well formed, reconstruction returns its
canonical form, and that text parses to the intended entry. -/
theorem reconstruct_intended (original t : String) (message : Entry)
    (hparse : parser.parseEntry original = .ok message)
    (hw : wellFormed (intended message t)) :
    getReconstructedSimpleMessage parser.parseEntry serializer.serializeEntry original t
        = .ok (serializer.serializeEntry (intended message t))
      ∧ parser.parseEntry (serializer.serializeEntry (intended message t))
        = .ok (intended message t) := by
  have hp := parseEntry_serializeEntry _ hw
  refine ⟨?_, hp⟩
  rw [getReconstructedSimpleMessage_eq _ _ _ _ _ hparse, content_eq_serializeEntry, hp]
  rfl

/-! ## Lines a successful parse cannot contain -/

theorem groupLines_heads (ls : List (List Char)) :
    ∀ l ∈ ls, continuation 8 l = none → ∃ g ∈ (groupLines ls).2, g.1 = l := by
  induction ls with
  | nil => simp
  | cons m ms ih =>
    intro l hl hc
    unfold groupLines
    rcases List.mem_cons.1 hl with rfl | hl
    · rw [hc]
      exact ⟨_, List.mem_cons_self _ _, rfl⟩
    · obtain ⟨g, hg, e⟩ := ih l hl hc
      cases hm : continuation 8 m with
      | none => exact ⟨g, List.mem_cons_of_mem _ hg, e⟩
      | some c => exact ⟨g, hg, e⟩

theorem parseGroups_all (gs : List (List Char × List String)) (as : List Attribute)
    (h : parseGroups gs = some as) :
    ∀ g ∈ gs, ∃ a, parseAttribute g = some a := by
  induction gs generalizing as with
  | nil => simp
  | cons g gs ih =>
    unfold parseGroups at h
    cases h1 : parseAttribute g with
    | none => simp [h1] at h
    | some b =>
      simp only [h1] at h
      cases h2 : parseGroups gs with
      | none => simp [h2] at h
      | some bs =>
        intro g2 hg2
        rcases List.mem_cons.1 hg2 with rfl | hg2
        · exact ⟨b, h1⟩
        · exact ih bs h2 g2 hg2

theorem parseAttribute_attributeLine (g : List Char × List String) (a : Attribute)
    (h : parseAttribute g = some a) : ∃ r, attributeLine g.1 = some r := by
  unfold parseAttribute at h
  cases ha : attributeLine g.1 with
  | none => simp [ha] at h
  | some r => exact ⟨r, rfl⟩

/-- In lines that parse as attributes, every line that is not a continuation
line of a block is an attribute line. -/
theorem parseAttributes_heads (ls : List (List Char)) (as : List Attribute)
    (h : parseAttributes ls = some as) :
    ∀ l ∈ ls, continuation 8 l = none → ∃ r, attributeLine l = some r := by
  unfold parseAttributes at h
  cases h1 : (groupLines ls).1 with
  | cons c cs => simp [h1] at h
  | nil =>
    simp only [h1] at h
    intro l hl hc
    obtain ⟨g, hg, e⟩ := groupLines_heads ls l hl hc
    obtain ⟨a, ha⟩ := parseGroups_all _ _ h g hg
    rw [← e]
    exact parseAttribute_attributeLine g a ha

theorem takeBlock_rest (ls : List (List Char)) :
    (takeBlock ls).2 = [] ∨ ∃ h rest, (takeBlock ls).2 = h :: rest ∧ h ∈ ls
      ∧ entryContinuation h = none := by
  induction ls with
  | nil => exact Or.inl rfl
  | cons l ls ih =>
    unfold takeBlock
    cases hl : entryContinuation l with
    | none => exact Or.inr ⟨l, ls, rfl, List.mem_cons_self _ _, hl⟩
    | some c =>
      rcases ih with h | ⟨h, rest, e1, e2, e3⟩
      · exact Or.inl h
      · exact Or.inr ⟨h, rest, e1, List.mem_cons_of_mem _ e2, e3⟩

theorem takeBlock_all (ls : List (List Char)) (h : (takeBlock ls).2 = []) :
    ∀ l ∈ ls, entryContinuation l ≠ none := by
  induction ls with
  | nil => simp
  | cons m ms ih =>
    unfold takeBlock at h
    cases hm : entryContinuation m with
    | none => simp [hm] at h
    | some c =>
      simp only [hm] at h
      intro l hl
      rcases List.mem_cons.1 hl with rfl | hl
      · rw [hm]
        simp
      · exact ih h l hl

theorem parseAssignment_blank : parseAssignment [' ', '=', ' '] = none := by
  decide

theorem parseAttributes_cons_header (hdr : List Char) (rest : List (List Char))
    (as : List Attribute) (hc : continuation 8 hdr = none)
    (h : parseAttributes (hdr :: rest) = some as) :
    ∃ a, parseAttribute (hdr, (groupLines rest).1) = some a := by
  unfold parseAttributes at h
  have hg : groupLines (hdr :: rest)
      = ([], (hdr, (groupLines rest).1) :: (groupLines rest).2) := by
    rw [groupLines, hc]
  rw [hg] at h
  simp only at h
  exact parseGroups_all _ _ h _ (List.mem_cons_self _ _)

/-- If the canonical form of the entry intended for one attribute parses,
every line of the translation has text. -/
theorem parse_one_lines (type : String) (id aid : Identifier) (t : String) (ast : Entry)
    (ht : type = "Message" ∨ type = "Term") (hn : validIdentifier id.name.data = true)
    (ha : validIdentifier aid.name.data = true)
    (h : parseLines (entryLines ⟨type, id, none, some [⟨aid, some t⟩]⟩) = some ast) :
    ∀ l ∈ splitChars '\n' t.data, l ≠ [] := by
  unfold entryLines at h
  obtain ⟨w, as, h1, _, h3⟩ := parseLines_eq_some _ _ _ h
  have hh := parseHeader_canonical type id.name.data none ht hn trivial
  simp only [inlinePart, inlineValue] at h1
  rw [hh] at h1
  simp only [Option.some.injEq, Prod.mk.injEq] at h1
  have hw : w = none := h1.2.2.symm
  rcases h3 with ⟨x, hx, _⟩ | ⟨_, _, h5⟩
  · rw [hw] at hx
    exact absurd hx (by simp)
  · simp only [valueLines, blockLines, List.map_nil, List.nil_append, Option.getD_some,
      List.map_cons, List.flatten_cons, List.flatten_nil, List.append_nil,
      attributeLines] at h5
    have htb : ∀ rest : List (List Char),
        takeBlock (attributeHeader ⟨aid, some t⟩ :: rest)
          = ([], attributeHeader ⟨aid, some t⟩ :: rest) := by
      intro rest
      rw [takeBlock]
      unfold attributeHeader
      rw [entryContinuation_dot]
    rw [htb] at h5
    simp only at h5
    by_cases hnl : '\n' ∈ t.data
    · intro l hl e
      subst e
      simp only [valueLines, blockLines, hnl, if_true] at h5
      have hmem : List.replicate 8 ' ' ++ [] ∈ attributeHeader ⟨aid, some t⟩
          :: (splitChars '\n' t.data).map (fun l => List.replicate 8 ' ' ++ l) :=
        List.mem_cons_of_mem _ (List.mem_map_of_mem _ hl)
      obtain ⟨r, hr⟩ := parseAttributes_heads _ _ h5 _ hmem (by decide)
      rw [attributeLine_indent8] at hr
      exact absurd hr (by simp)
    · rw [splitChars_of_not_mem _ _ hnl]
      intro l hl e
      simp only [List.mem_singleton] at hl
      subst hl
      obtain ⟨a, hpa⟩ := parseAttributes_cons_header _ _ _
        (continuation8_attributeHeader _) h5
      unfold parseAttribute attributeHeader at hpa
      simp only [attributeLine_dot, inlinePart, inlineValue, hnl, if_false,
        assignmentPart] at hpa
      rw [e] at hpa
      have e2 : aid.name.data ++ [' ', '='] ++ [' '] = aid.name.data ++ ' ' :: ['=', ' '] := by
        simp
      rw [e2, parseNamed_append _ _ ha, parseAssignment_blank] at hpa
      simp at hpa

/-- If the canonical form of the entry intended for a value parses, and no
line of a translation of several lines starts with `.`, every line of the
translation has text. -/
theorem parse_other_lines (type : String) (id : Identifier) (t : String) (ast : Entry)
    (ht : type = "Message" ∨ type = "Term") (hn : validIdentifier id.name.data = true)
    (hdot : '\n' ∈ t.data → ∀ l ∈ splitChars '\n' t.data, l.head? ≠ some '.')
    (h : parseLines (entryLines ⟨type, id, some t, some []⟩) = some ast) :
    ∀ l ∈ splitChars '\n' t.data, l ≠ [] := by
  unfold entryLines at h
  obtain ⟨w, as, h1, _, h3⟩ := parseLines_eq_some _ _ _ h
  by_cases hnl : '\n' ∈ t.data
  · have hh := parseHeader_canonical type id.name.data none ht hn trivial
    simp only [inlinePart, inlineValue, hnl, if_true] at h1
    rw [hh] at h1
    simp only [Option.some.injEq, Prod.mk.injEq] at h1
    have hw : w = none := h1.2.2.symm
    rcases h3 with ⟨x, hx, _⟩ | ⟨_, _, h5⟩
    · rw [hw] at hx
      exact absurd hx (by simp)
    · simp only [valueLines, blockLines, hnl, if_true, Option.getD_some, List.map_nil,
        List.flatten_nil, List.append_nil] at h5
      have hline : ∀ m ∈ (splitChars '\n' t.data).map (fun l => List.replicate 4 ' ' ++ l),
          entryContinuation m = none → m = List.replicate 4 ' ' := by
        intro m hm hc
        obtain ⟨l, hl, rfl⟩ := List.mem_map.1 hm
        cases l with
        | nil => simp
        | cons c cs =>
          rw [entryContinuation_indent _ (by simp) (hdot hnl _ hl)] at hc
          exact absurd hc (by simp)
      rcases takeBlock_rest ((splitChars '\n' t.data).map
          (fun l => List.replicate 4 ' ' ++ l)) with hr | ⟨hd, rest, e1, e2, e3⟩
      · intro l hl e
        subst e
        exact takeBlock_all _ hr _ (List.mem_map_of_mem _ hl) (by decide)
      · rw [e1] at h5
        have e4 := hline hd e2 e3
        subst e4
        obtain ⟨r, hr⟩ := parseAttributes_heads _ _ h5 _ (List.mem_cons_self _ _) (by decide)
        have hnone : attributeLine (List.replicate 4 ' ') = none := by decide
        rw [hnone] at hr
        exact absurd hr (by simp)
  · rw [splitChars_of_not_mem _ _ hnl]
    intro l hl e
    simp only [List.mem_singleton] at hl
    subst hl
    simp only [inlinePart, inlineValue, hnl, if_false, assignmentPart] at h1
    rw [e] at h1
    have e2 : sigil type ++ id.name.data ++ [' ', '='] ++ [' ']
        = sigil type ++ id.name.data ++ ' ' :: ['=', ' '] := by simp
    rw [e2, parseHeader_key type _ _ ht hn, parseAssignment_blank] at h1
    simp at h1

theorem intended_names (message : Entry) (t : String) (hm : wellFormed message) :
    validIdentifier (intended message t).id.name.data = true
      ∧ ∀ a ∈ (intended message t).attributes.getD [],
          validIdentifier a.id.name.data = true := by
  obtain ⟨hn, hall⟩ := wellFormed_names message hm
  unfold intended
  split
  · next a ha =>
    refine ⟨hn, ?_⟩
    intro b hb
    simp only [Option.getD_some, List.mem_singleton] at hb
    subst hb
    exact hall a (by simp [ha])
  · exact ⟨hn, by simp⟩

theorem parse_content_lines (message ast : Entry) (t : String) (hm : wellFormed message)
    (h : parser.parseEntry (content message t) = .ok ast) :
    parseLines (entryLines (intended message t)) = some ast := by
  unfold parser.parseEntry at h
  rw [content_eq_serializeEntry, splitChars_serializeEntry _ (intended_names message t hm).1
    (intended_names message t hm).2] at h
  cases hp : parseLines (entryLines (intended message t)) with
  | none =>
    rw [hp] at h
    exact absurd h (by simp)
  | some e =>
    rw [hp] at h
    simp only [Except.ok.injEq] at h
    rw [h]

theorem parse_content_eq_intended (message ast : Entry) (t : String)
    (hw : wellFormed (intended message t))
    (h : parser.parseEntry (content message t) = .ok ast) :
    ast = intended message t := by
  rw [content_eq_serializeEntry, parseEntry_serializeEntry _ hw] at h
  simp only [Except.ok.injEq] at h
  exact h.symm

/-- With exactly one attribute, a text built that parses is the canonical
form of a well-formed intended entry. -/
theorem parse_content_one (message ast : Entry) (a : Attribute) (t : String)
    (hm : wellFormed message) (ha : message.attributes = some [a])
    (h : parser.parseEntry (content message t) = .ok ast) :
    wellFormed (intended message t) := by
  have hl := parse_content_lines message ast t hm h
  rw [intended_one message a t ha] at hl
  have hall := (wellFormed_names message hm).2 a (by simp [ha])
  have hne := parse_one_lines message.type message.id a.id t ast hm.1 hm.2.1 hall hl
  apply wellFormed_intended_one message a t hm ha
  intro l hl2 e
  obtain ⟨m, hm2, rfl⟩ := List.mem_map.1 hl2
  apply hne m hm2
  simpa using congrArg String.data e

/-- Without exactly one attribute, a text built that parses is the canonical
form of a well-formed intended entry, when no line of a translation of several
lines starts with `.`. -/
theorem parse_content_other (message ast : Entry) (t : String)
    (hm : wellFormed message) (hne : ∀ a, message.attributes ≠ some [a])
    (hdot : '\n' ∈ t.data → ∀ l ∈ split t '\n', l.data.head? ≠ some '.')
    (h : parser.parseEntry (content message t) = .ok ast) :
    wellFormed (intended message t) := by
  have hl := parse_content_lines message ast t hm h
  rw [intended_other message t hne] at hl
  have hd : '\n' ∈ t.data → ∀ l ∈ splitChars '\n' t.data, l.head? ≠ some '.' :=
    fun hn l hl2 => hdot hn (String.mk l) (List.mem_map_of_mem _ hl2)
  have hne2 := parse_other_lines message.type message.id t ast hm.1 hm.2.1 hd hl
  apply wellFormed_intended_other message t hm hne
  intro l hl2
  refine ⟨?_, fun hn => hdot hn l hl2⟩
  intro e
  obtain ⟨m, hm2, rfl⟩ := List.mem_map.1 hl2
  apply hne2 m hm2
  simpa using congrArg String.data e

/-! ## Entries without exactly one attribute -/

theorem not_single_of_length (message : Entry)
    (h : (message.attributes.getD []).length ≠ 1) :
    ∀ a, message.attributes ≠ some [a] := by
  intro a ha
  apply h
  rw [ha]
  rfl

theorem key_eq_of_type_id (m n : Entry) (htype : m.type = n.type)
    (hid : m.id.name = n.id.name) : key m = key n := by
  unfold key
  rw [htype, hid]

/-! ## The lines of a multi-line text built -/

theorem splitChars_length (c : Char) (t : List Char) :
    (splitChars c t).length = t.count c + 1 := by
  induction t with
  | nil => rfl
  | cons x xs ih =>
    by_cases h : x = c
    · subst h
      rw [splitChars_cons_sep]
      simp [ih]
    · cases hs : splitChars c xs with
      | nil => exact absurd hs (splitChars_ne_nil c xs)
      | cons p ps =>
        rw [splitChars_cons_ne c x xs p ps h hs]
        rw [hs] at ih
        rw [List.count_cons_of_ne (fun e => h e.symm)]
        exact ih

theorem flatten_indent_replace (c : Char) (ind t : List Char) :
    ((splitChars c t).map (fun l => c :: (ind ++ l))).flatten
      = c :: ind ++ replaceChar c (c :: ind) t := by
  induction t with
  | nil => simp [splitChars, replaceChar]
  | cons x xs ih =>
    by_cases h : x = c
    · subst h
      rw [splitChars_cons_sep]
      simp only [List.map_cons, List.flatten_cons, ih, replaceChar, if_true]
      simp
    · cases hs : splitChars c xs with
      | nil => exact absurd hs (splitChars_ne_nil c xs)
      | cons p ps =>
        rw [splitChars_cons_ne c x xs p ps h hs]
        rw [hs] at ih
        simp only [List.map_cons, List.flatten_cons, replaceChar, h, if_false] at ih ⊢
        have e : p ++ (ps.map (fun l => c :: (ind ++ l))).flatten = replaceChar c (c :: ind) xs := by
          have := ih
          simp only [List.cons_append, List.append_assoc, List.cons.injEq, true_and] at this
          exact List.append_cancel_left this
        simp only [List.cons_append, List.append_assoc, List.cons.injEq, true_and]
        rw [e]

theorem splitChars_indented (h ind t : List Char) (hh : '\n' ∉ h) (hi : '\n' ∉ ind) :
    splitChars '\n' (h ++ ((splitChars '\n' t).map (fun l => '\n' :: (ind ++ l))).flatten)
      = h :: (splitChars '\n' t).map (fun l => ind ++ l) := by
  have e : (splitChars '\n' t).map (fun l => '\n' :: (ind ++ l))
      = ((splitChars '\n' t).map (fun l => ind ++ l)).map (fun l => '\n' :: l) := by
    rw [List.map_map]
    rfl
  rw [e]
  apply splitChars_lines '\n' h _ hh
  intro l hl
  obtain ⟨m, hm, rfl⟩ := List.mem_map.1 hl
  simp only [List.mem_append, not_or]
  exact ⟨hi, splitChars_no_sep _ _ m hm⟩

theorem joinLines_dropChars (ind : List Char) (t : String) :
    joinLines ((((splitChars '\n' t.data).map (fun l => ind ++ l)).map String.mk).map
      (dropChars ind.length)) = t := by
  have e : (((splitChars '\n' t.data).map (fun l => ind ++ l)).map String.mk).map
      (dropChars ind.length) = split t '\n' := by
    unfold split
    simp only [List.map_map]
    apply List.map_congr_left
    intro l _
    simp [dropChars]
  rw [e, joinLines_split]

theorem content_other_data (message : Entry) (t : String)
    (hne : ∀ a, message.attributes ≠ some [a]) (ht : '\n' ∈ t.data) :
    (content message t).data
      = ((key message).data ++ [' ', '='])
        ++ ((splitChars '\n' t.data).map
            (fun l => '\n' :: (List.replicate 4 ' ' ++ l))).flatten := by
  rw [content_other message t hne, if_pos ht]
  simp only [String.data_append, concat_data, split, List.map_map]
  rfl

theorem content_one_data (message : Entry) (a : Attribute) (t : String)
    (ha : message.attributes = some [a]) (ht : '\n' ∈ t.data) :
    (content message t).data
      = ((key message).data ++ [' ', '='])
        ++ '\n' :: (([' ', ' ', ' ', ' ', '.'] ++ a.id.name.data ++ [' ', '='])
          ++ ((splitChars '\n' t.data).map
              (fun l => '\n' :: (List.replicate 8 ' ' ++ l))).flatten) := by
  rw [content_one message a t ha, if_pos ht]
  simp only [String.data_append, concat_data, split, List.map_map]
  simp
  rfl

theorem split_content_other (message : Entry) (t : String)
    (hne : ∀ a, message.attributes ≠ some [a]) (ht : '\n' ∈ t.data)
    (hk : '\n' ∉ (key message).data) :
    split (content message t) '\n'
      = (((key message).data ++ [' ', '='])
          :: (splitChars '\n' t.data).map (fun l => List.replicate 4 ' ' ++ l)).map
            String.mk := by
  unfold split
  rw [content_other_data message t hne ht, splitChars_indented _ _ _ _ (by decide)]
  simp only [List.mem_append, not_or]
  exact ⟨hk, by decide⟩

theorem split_content_one (message : Entry) (a : Attribute) (t : String)
    (ha : message.attributes = some [a]) (ht : '\n' ∈ t.data)
    (hk : '\n' ∉ (key message).data) (hn : '\n' ∉ a.id.name.data) :
    split (content message t) '\n'
      = (((key message).data ++ [' ', '='])
          :: ([' ', ' ', ' ', ' ', '.'] ++ a.id.name.data ++ [' ', '='])
          :: (splitChars '\n' t.data).map (fun l => List.replicate 8 ' ' ++ l)).map
            String.mk := by
  unfold split
  have h1 : '\n' ∉ (key message).data ++ [' ', '='] := by
    simp only [List.mem_append, not_or]
    exact ⟨hk, by decide⟩
  have h2 : '\n' ∉ [' ', ' ', ' ', ' ', '.'] ++ a.id.name.data ++ [' ', '='] := by
    simp only [List.mem_append, not_or]
    exact ⟨⟨by decide, hn⟩, by decide⟩
  rw [content_one_data message a t ha ht, splitChars_append_sep,
    splitChars_of_not_mem _ _ h1, splitChars_indented _ _ _ h2 (by decide)]
  rfl

/-- The display key of an entry the parser returns has no line break. -/
theorem key_no_newline (source : String) (message : Entry)
    (h : parser.parseEntry source = .ok message) : '\n' ∉ (key message).data := by
  obtain ⟨_, hn, _, _⟩ := parseEntry_wellFormed source message h
  rw [key_data]
  simp only [List.mem_append, not_or]
  refine ⟨?_, validIdentifier_no_newline _ hn⟩
  unfold sigil
  split <;> decide

/-! ## The icon of the visibility switch -/

/-- No element is found by a comparison with `undefined`. -/
theorem find?_undefined {α : Type} (g : α → String) (l : List α) :
    l.find? (fun f => some (g f) == (none : Option String)) = none := by
  induction l with
  | nil => rfl
  | cons x xs ih =>
    rw [List.find?_cons_of_neg _ (by simp)]
    exact ih

theorem filterIcon_of_count_ne_one (FILTERS_STATUS FILTERS_EXTRA : List Filter)
    (props : Props) (h : selectedFiltersCount props ≠ 1) :
    filterIcon FILTERS_STATUS FILTERS_EXTRA props = "all" := by
  unfold filterIcon
  simp only [h, if_false]

/-- With one filter selected in all, the icon is decided by the four lookups in turn. -/
theorem filterIcon_of_count_one (FILTERS_STATUS FILTERS_EXTRA : List Filter)
    (props : Props) (h : selectedFiltersCount props = 1) :
    filterIcon FILTERS_STATUS FILTERS_EXTRA props
      = match props.authorsData.find?
            (fun f => some f.email == (selectedAuthors props)[0]?) with
        | some _ => "author"
        | none =>
          match props.tagsData.find? (fun f => some f.slug == (selectedTags props)[0]?) with
          | some _ => "tag"
          | none =>
            match FILTERS_EXTRA.find?
                (fun f => some f.slug == (selectedExtras props)[0]?) with
            | some selectedExtra => selectedExtra.slug
            | none =>
              match FILTERS_STATUS.find?
                  (fun f => some f.slug == (selectedStatuses props)[0]?) with
              | some selectedStatus => selectedStatus.slug
              | none => "all" := by
  unfold filterIcon
  simp only [h, if_true]

theorem filterIcon_single_status (FILTERS_STATUS FILTERS_EXTRA : List Filter)
    (props : Props) (slug : String)
    (hcount : selectedFiltersCount props = 1)
    (hs : selectedStatuses props = [slug])
    (hin : ∃ f ∈ FILTERS_STATUS, f.slug = slug) :
    filterIcon FILTERS_STATUS FILTERS_EXTRA props = slug := by
  have hlen := hcount
  unfold selectedFiltersCount at hlen
  rw [hs] at hlen
  simp only [List.length_singleton] at hlen
  have he : selectedExtras props = [] := List.length_eq_zero.1 (by omega)
  have ht : selectedTags props = [] := List.length_eq_zero.1 (by omega)
  have ha : selectedAuthors props = [] := List.length_eq_zero.1 (by omega)
  rw [filterIcon_of_count_one _ _ _ hcount, hs, he, ht, ha]
  have e0 : ([] : List String)[0]? = none := rfl
  have e1 : [slug][0]? = some slug := rfl
  simp only [e0, e1, find?_undefined]
  cases hf : FILTERS_STATUS.find? (fun f => some f.slug == some slug) with
  | none =>
    obtain ⟨f, hfm, hfs⟩ := hin
    have := List.find?_eq_none.1 hf f hfm
    simp [hfs] at this
  | some selectedStatus =>
    have := List.find?_some hf
    simpa using this

/-! ## The two layouts differ -/

theorem multiline_layout_data (ind t : String) :
    (concat ((split t '\n').map (fun l => "\n" ++ ind ++ l))).data
      = '\n' :: ind.data ++ replaceChar '\n' ('\n' :: ind.data) t.data := by
  rw [← flatten_indent_replace, concat_data]
  unfold split
  simp only [List.map_map]
  congr 1

/-- After the same beginning, the multi-line layout goes on with a line break
and the single-line layout with a space. -/
theorem multiline_ne_single (pre : List Char) (ind t : String) :
    pre ++ (concat ((split t '\n').map (fun l => "\n" ++ ind ++ l))).data
      ≠ pre ++ ' ' :: t.data := by
  intro h
  rw [multiline_layout_data] at h
  have h2 := List.append_cancel_left h
  simp only [List.cons_append, List.cons.injEq] at h2
  exact absurd h2.1 (by decide)

/-- With exactly one attribute, each layout is the text built for exactly the
translations with, and without, a line break. -/
theorem content_one_iff (message : Entry) (a : Attribute) (t : String)
    (ha : message.attributes = some [a]) :
    ('\n' ∈ t.data ↔
        content message t
          = key message ++ " =\n    ." ++ a.id.name ++ " ="
            ++ concat ((split t '\n').map (fun l => "\n" ++ "        " ++ l)))
      ∧ ('\n' ∉ t.data ↔
          content message t = key message ++ " =\n    ." ++ a.id.name ++ " = " ++ t) := by
  have hne : key message ++ " =\n    ." ++ a.id.name ++ " ="
        ++ concat ((split t '\n').map (fun l => "\n" ++ "        " ++ l))
      ≠ key message ++ " =\n    ." ++ a.id.name ++ " = " ++ t := by
    intro e
    have e2 := congrArg String.data e
    apply multiline_ne_single ((key message).data ++ " =\n    .".data ++ a.id.name.data
      ++ " =".data) "        " t
    simp only [String.data_append] at e2
    rw [e2]
    simp
  have hc := content_one message a t ha
  by_cases h : '\n' ∈ t.data
  · rw [if_pos h] at hc
    refine ⟨⟨fun _ => hc, fun _ => h⟩, ⟨fun hn => absurd h hn, ?_⟩⟩
    intro e
    exact absurd (hc.symm.trans e) hne
  · rw [if_neg h] at hc
    refine ⟨⟨fun hn => absurd hn h, ?_⟩, ⟨fun _ => hc, fun _ => h⟩⟩
    intro e
    exact absurd (e.symm.trans hc) hne

/-- Without exactly one attribute, each layout is the text built for exactly
the translations with, and without, a line break. -/
theorem content_other_iff (message : Entry) (t : String)
    (hattrs : ∀ a, message.attributes ≠ some [a]) :
    ('\n' ∈ t.data ↔
        content message t
          = key message ++ " ="
            ++ concat ((split t '\n').map (fun l => "\n" ++ "    " ++ l)))
      ∧ ('\n' ∉ t.data ↔ content message t = key message ++ " = " ++ t) := by
  have hne : key message ++ " ="
        ++ concat ((split t '\n').map (fun l => "\n" ++ "    " ++ l))
      ≠ key message ++ " = " ++ t := by
    intro e
    have e2 := congrArg String.data e
    apply multiline_ne_single ((key message).data ++ " =".data) "    " t
    simp only [String.data_append] at e2
    rw [e2]
    simp
  have hc := content_other message t hattrs
  by_cases h : '\n' ∈ t.data
  · rw [if_pos h] at hc
    refine ⟨⟨fun _ => hc, fun _ => h⟩, ⟨fun hn => absurd h hn, ?_⟩⟩
    intro e
    exact absurd (hc.symm.trans e) hne
  · rw [if_neg h] at hc
    refine ⟨⟨fun hn => absurd hn h, ?_⟩, ⟨fun _ => hc, fun _ => h⟩⟩
    intro e
    exact absurd (e.symm.trans hc) hne

/-- The translation can be read back from the multi-line text built.  For a
translation `t` that contains a line break, the value-level text is the key, `" =\n    "` and `t` with every line break replaced by a line break
and 4 spaces; for a key without a line break (every identifier is one) it has
`1 + (number of line breaks in t) + 1` lines, and dropping its first line,
removing the first 4 characters of each remaining line and joining by line
breaks gives `t`.  The same holds for the text of the one-attribute branch
when the attribute name has no line break either, with 8 spaces, its first two
lines dropped, and one more line. -/
theorem multiline_text_recoverable (message : Entry) (t : String)
    (ht : '\n' ∈ t.data) :
    ((∀ a, message.attributes ≠ some [a]) →
        content message t = key message ++ " =\n    " ++ replaceAll t '\n' "\n    "
        ∧ ('\n' ∉ (key message).data →
            (split (content message t) '\n').length = 1 + t.data.count '\n' + 1
            ∧ joinLines (((split (content message t) '\n').drop 1).map (dropChars 4)) = t))
      ∧ (∀ a, message.attributes = some [a] →
          content message t
              = key message ++ " =\n    ." ++ a.id.name ++ " =\n        "
                ++ replaceAll t '\n' "\n        "
          ∧ ('\n' ∉ (key message).data → '\n' ∉ a.id.name.data →
              (split (content message t) '\n').length = 2 + t.data.count '\n' + 1
              ∧ joinLines (((split (content message t) '\n').drop 2).map (dropChars 8))
                = t)) := by
  refine ⟨?_, ?_⟩
  · intro hne
    refine ⟨?_, ?_⟩
    · apply String.ext
      rw [content_other_data message t hne ht, flatten_indent_replace]
      simp [replaceAll]
    · intro hk
      rw [split_content_other message t hne ht hk]
      refine ⟨?_, ?_⟩
      · simp only [List.length_map, List.length_cons, splitChars_length]
        omega
      · simp only [List.map_cons, List.drop_succ_cons, List.drop_zero]
        exact joinLines_dropChars (List.replicate 4 ' ') t
  · intro a ha
    refine ⟨?_, ?_⟩
    · apply String.ext
      rw [content_one_data message a t ha ht, flatten_indent_replace]
      simp [replaceAll]
    · intro hk hn
      rw [split_content_one message a t ha ht hk hn]
      refine ⟨?_, ?_⟩
      · simp only [List.length_map, List.length_cons, splitChars_length]
        omega
      · simp only [List.map_cons, List.drop_succ_cons, List.drop_zero]
        exact joinLines_dropChars (List.replicate 8 ' ') t

/-! ## The claims -/

/-- C1: for an original that parses to an entry with exactly one attribute
named `a` and display key `k`, the text handed to the second `parseEntry` is
`k + " =\n    ." + a + " = " + t` when the translation `t` has no line break,
and otherwise `k + " =\n    ." + a + " ="` followed, for each element `l` of
`t` split on the line break, in order, by a line break, 8 spaces and `l`. -/
theorem C1_single_attribute_text
    (parseEntry : String → Except GrammarError Entry) (serializeEntry : Entry → String)
    (original translation : String) (message : Entry) (a : Attribute)
    (hparse : parseEntry original = .ok message)
    (hattrs : message.attributes = some [a]) :
    getReconstructedSimpleMessage parseEntry serializeEntry original translation
        = (parseEntry (content message translation)).map serializeEntry
      ∧ ('\n' ∉ translation.data →
          content message translation
            = key message ++ " =\n    ." ++ a.id.name ++ " = " ++ translation)
      ∧ ('\n' ∈ translation.data →
          content message translation
            = key message ++ " =\n    ." ++ a.id.name ++ " ="
              ++ concat ((split translation '\n').map (fun l => "\n" ++ "        " ++ l))) := by
  refine ⟨getReconstructedSimpleMessage_eq _ _ _ _ _ hparse, ?_, ?_⟩
  · intro h
    rw [content_one message a translation hattrs, if_neg h]
  · intro h
    rw [content_one message a translation hattrs, if_pos h]
    rfl

/-- C1 at the original `greeting` with the one attribute `tooltip` and the
translation `"Line1\nLine2"`. -/
theorem C1_single_attribute_text_witness :
    parser.parseEntry "greeting =\n    .tooltip = Hi"
        = .ok ⟨"Message", ⟨"greeting"⟩, none, some [⟨⟨"tooltip"⟩, some "Hi"⟩]⟩
      ∧ content ⟨"Message", ⟨"greeting"⟩, none, some [⟨⟨"tooltip"⟩, some "Hi"⟩]⟩ "Line1\nLine2"
        = "greeting =\n    .tooltip =\n        Line1\n        Line2" :=
  ⟨rfl, (C1_single_attribute_text parser.parseEntry serializer.serializeEntry
    "greeting =\n    .tooltip = Hi" "Line1\nLine2"
    ⟨"Message", ⟨"greeting"⟩, none, some [⟨⟨"tooltip"⟩, some "Hi"⟩]⟩ ⟨⟨"tooltip"⟩, some "Hi"⟩
    rfl rfl).2.2 (by decide)⟩

/-- C2: for an original that parses to an entry whose attribute list is
absent, empty, or has two or more elements, with display key `k`, the text
handed to the second `parseEntry` is `k + " = " + t` when the translation `t`
has no line break, and otherwise `k + " ="` followed, for each element `l` of
`t` split on the line break, in order, by a line break, 4 spaces and `l`. -/
theorem C2_value_level_text
    (parseEntry : String → Except GrammarError Entry) (serializeEntry : Entry → String)
    (original translation : String) (message : Entry)
    (hparse : parseEntry original = .ok message)
    (hattrs : message.attributes = none ∨ message.attributes = some []
      ∨ ∃ as, message.attributes = some as ∧ 2 ≤ as.length) :
    getReconstructedSimpleMessage parseEntry serializeEntry original translation
        = (parseEntry (content message translation)).map serializeEntry
      ∧ ('\n' ∉ translation.data →
          content message translation = key message ++ " = " ++ translation)
      ∧ ('\n' ∈ translation.data →
          content message translation
            = key message ++ " ="
              ++ concat ((split translation '\n').map (fun l => "\n" ++ "    " ++ l))) := by
  have hne : ∀ a, message.attributes ≠ some [a] := by
    intro a ha
    rcases hattrs with h | h | ⟨as, h, hlen⟩
    · rw [h] at ha
      exact absurd ha (by simp)
    · rw [h] at ha
      exact absurd ha (by simp)
    · rw [h] at ha
      simp only [Option.some.injEq] at ha
      subst ha
      simp at hlen
  refine ⟨getReconstructedSimpleMessage_eq _ _ _ _ _ hparse, ?_, ?_⟩
  · intro h
    rw [content_other message translation hne, if_neg h]
  · intro h
    rw [content_other message translation hne, if_pos h]
    rfl

/-- C2 at the original `greeting = Hi`, which has no attribute, and the
translation `"Hello\nWorld"`. -/
theorem C2_value_level_text_witness :
    parser.parseEntry "greeting = Hi" = .ok ⟨"Message", ⟨"greeting"⟩, some "Hi", some []⟩
      ∧ content ⟨"Message", ⟨"greeting"⟩, some "Hi", some []⟩ "Hello\nWorld"
        = "greeting =\n    Hello\n    World" :=
  ⟨rfl, (C2_value_level_text parser.parseEntry serializer.serializeEntry
    "greeting = Hi" "Hello\nWorld" ⟨"Message", ⟨"greeting"⟩, some "Hi", some []⟩
    rfl (Or.inr (Or.inl rfl))).2.2 (by decide)⟩

/-- C3: the display key of a parsed original entry with identifier name `n`
is `"-" + n` when the entry's type is `Term` and `n` otherwise, and in every
formatting branch the text built by `getReconstructedSimpleMessage`, the one
handed to the second `parseEntry`, begins with that key followed by `" ="`. -/
theorem C3_key_derivation
    (parseEntry : String → Except GrammarError Entry) (serializeEntry : Entry → String)
    (original translation : String) (message : Entry)
    (hparse : parseEntry original = .ok message) :
    key message = (if message.type = "Term" then "-" ++ message.id.name else message.id.name)
      ∧ ∃ rest, content message translation = key message ++ " =" ++ rest
          ∧ getReconstructedSimpleMessage parseEntry serializeEntry original translation
            = (parseEntry (key message ++ " =" ++ rest)).map serializeEntry := by
  refine ⟨rfl, ?_⟩
  have hg := getReconstructedSimpleMessage_eq parseEntry serializeEntry original
    translation message hparse
  by_cases h1 : ∃ a, message.attributes = some [a]
  · obtain ⟨a, ha⟩ := h1
    by_cases hn : '\n' ∈ translation.data
    · refine ⟨"\n    ." ++ a.id.name ++ " ="
        ++ concat ((split translation '\n').map (fun l => "\n        " ++ l)), ?_⟩
      have e : content message translation = key message ++ " =" ++ ("\n    ." ++ a.id.name
          ++ " =" ++ concat ((split translation '\n').map (fun l => "\n        " ++ l))) := by
        rw [content_one message a translation ha, if_pos hn]
        apply String.ext
        simp
      exact ⟨e, by rw [← e]; exact hg⟩
    · refine ⟨"\n    ." ++ a.id.name ++ " = " ++ translation, ?_⟩
      have e : content message translation
          = key message ++ " =" ++ ("\n    ." ++ a.id.name ++ " = " ++ translation) := by
        rw [content_one message a translation ha, if_neg hn]
        apply String.ext
        simp
      exact ⟨e, by rw [← e]; exact hg⟩
  · have hne : ∀ a, message.attributes ≠ some [a] := fun a ha => h1 ⟨a, ha⟩
    by_cases hn : '\n' ∈ translation.data
    · refine ⟨concat ((split translation '\n').map (fun l => "\n    " ++ l)), ?_⟩
      have e : content message translation = key message ++ " ="
          ++ concat ((split translation '\n').map (fun l => "\n    " ++ l)) := by
        rw [content_other message translation hne, if_pos hn]
      exact ⟨e, by rw [← e]; exact hg⟩
    · refine ⟨" " ++ translation, ?_⟩
      have e : content message translation = key message ++ " =" ++ (" " ++ translation) := by
        rw [content_other message translation hne, if_neg hn]
        apply String.ext
        simp
      exact ⟨e, by rw [← e]; exact hg⟩

/-- C3 at the term `-brand-name = Firefox`: the key is `-brand-name`. -/
theorem C3_key_derivation_witness :
    parser.parseEntry "-brand-name = Firefox"
        = .ok ⟨"Term", ⟨"brand-name"⟩, some "Firefox", some []⟩
      ∧ key ⟨"Term", ⟨"brand-name"⟩, some "Firefox", some []⟩ = "-brand-name" :=
  ⟨rfl, (C3_key_derivation parser.parseEntry serializer.serializeEntry
    "-brand-name = Firefox" "Zorro" ⟨"Term", ⟨"brand-name"⟩, some "Firefox", some []⟩ rfl).1⟩

/-- C4: the multi-line branch is taken exactly when the translation contains
a line break, as a plain search: the test of line 19 holds exactly then, and
in both attribute cases the text built is the multi-line layout exactly for
the translations with a line break and the single-line layout exactly for
those without.  So for a translation `s + "\n"` where `s` has no line break
the multi-line branch is taken, and the text built ends with a last line that
is only the indentation of the branch: 8 spaces for exactly one attribute, 4
spaces otherwise. -/
theorem C4_multiline_is_substring_test (message : Entry) (t s : String)
    (hs : '\n' ∉ s.data) :
    (isMultilineTranslation t = true ↔ '\n' ∈ t.data)
      ∧ isMultilineTranslation (s ++ "\n") = true
      ∧ (∀ a, message.attributes = some [a] →
          content message (s ++ "\n")
              = key message ++ " =\n    ." ++ a.id.name ++ " =" ++ "\n        " ++ s
                ++ "\n" ++ "        "
            ∧ (split (content message (s ++ "\n")) '\n').getLast? = some "        ")
      ∧ ((∀ a, message.attributes ≠ some [a]) →
          content message (s ++ "\n") = key message ++ " =" ++ "\n    " ++ s ++ "\n" ++ "    "
            ∧ (split (content message (s ++ "\n")) '\n').getLast? = some "    ")
      ∧ (∀ a, message.attributes = some [a] →
          ('\n' ∈ t.data ↔
              content message t
                = key message ++ " =\n    ." ++ a.id.name ++ " ="
                  ++ concat ((split t '\n').map (fun l => "\n" ++ "        " ++ l)))
            ∧ ('\n' ∉ t.data ↔
                content message t
                  = key message ++ " =\n    ." ++ a.id.name ++ " = " ++ t))
      ∧ ((∀ a, message.attributes ≠ some [a]) →
          ('\n' ∈ t.data ↔
              content message t
                = key message ++ " ="
                  ++ concat ((split t '\n').map (fun l => "\n" ++ "    " ++ l)))
            ∧ ('\n' ∉ t.data ↔ content message t = key message ++ " = " ++ t)) := by
  refine ⟨isMultilineTranslation_iff t,
    (isMultilineTranslation_iff _).2 (mem_trailing_newline s), ?_, ?_,
    fun a ha => content_one_iff message a t ha,
    fun hne => content_other_iff message t hne⟩
  · intro a ha
    have e := content_one_trailing message a s ha hs
    refine ⟨e, ?_⟩
    rw [e]
    exact split_getLast_of_suffix _ "        " (by decide)
  · intro hne
    have e := content_other_trailing message s hne hs
    refine ⟨e, ?_⟩
    rw [e]
    exact split_getLast_of_suffix _ "    " (by decide)

/-- C4 for an entry without attributes: at the translation `"Hello\n"` the
text built is `greeting =`, the line `    Hello` and a last line of 4 spaces;
at `"Hello\nWorld"` it is the multi-line layout, and at `"Hello"` it is the
single-line layout and not the multi-line one. -/
theorem C4_multiline_is_substring_test_witness :
    '\n' ∉ "Hello".data
      ∧ content ⟨"Message", ⟨"greeting"⟩, some "Hi", some []⟩ ("Hello" ++ "\n")
        = "greeting =\n    Hello\n    "
      ∧ content ⟨"Message", ⟨"greeting"⟩, some "Hi", some []⟩ "Hello\nWorld"
        = "greeting =\n    Hello\n    World"
      ∧ content ⟨"Message", ⟨"greeting"⟩, some "Hi", some []⟩ "Hello" = "greeting = Hello"
      ∧ content ⟨"Message", ⟨"greeting"⟩, some "Hi", some []⟩ "Hello"
        ≠ "greeting =\n    Hello" :=
  ⟨by decide,
    ((C4_multiline_is_substring_test ⟨"Message", ⟨"greeting"⟩, some "Hi", some []⟩
      "" "Hello" (by decide)).2.2.2.1 (fun _ h => by simp at h)).1,
    ((C4_multiline_is_substring_test ⟨"Message", ⟨"greeting"⟩, some "Hi", some []⟩
      "Hello\nWorld" "Hello" (by decide)).2.2.2.2.2 (fun _ h => by simp at h)).1.1
        (by decide),
    ((C4_multiline_is_substring_test ⟨"Message", ⟨"greeting"⟩, some "Hi", some []⟩
      "Hello" "Hello" (by decide)).2.2.2.2.2 (fun _ h => by simp at h)).2.1 (by decide),
    fun e => absurd
      (((C4_multiline_is_substring_test ⟨"Message", ⟨"greeting"⟩, some "Hi", some []⟩
        "Hello" "Hello" (by decide)).2.2.2.2.2 (fun _ h => by simp at h)).1.2 e)
      (by decide)⟩

/-- C5: with `parseEntry` returning an entry or a `GrammarError`,
`getReconstructedSimpleMessage` fails with a `GrammarError` exactly when
`parseEntry(original)` fails or `parseEntry` of the text built fails; it
returns a text only when both parses succeed, and then the serialization of
the second parse; and a failure of `parseEntry(original)` is a failure for
every translation. -/
theorem C5_failure_iff_a_parse_fails
    (parseEntry : String → Except GrammarError Entry) (serializeEntry : Entry → String)
    (original translation : String) :
    (getReconstructedSimpleMessage parseEntry serializeEntry original translation
          = .error .grammarError
        ↔ (parseEntry original = .error .grammarError
            ∨ ∃ message, parseEntry original = .ok message
                ∧ parseEntry (content message translation) = .error .grammarError))
      ∧ (∀ r, getReconstructedSimpleMessage parseEntry serializeEntry original translation
            = .ok r →
          ∃ message ast, parseEntry original = .ok message
            ∧ parseEntry (content message translation) = .ok ast ∧ r = serializeEntry ast)
      ∧ (parseEntry original = .error .grammarError →
          ∀ t, getReconstructedSimpleMessage parseEntry serializeEntry original t
            = .error .grammarError) := by
  unfold getReconstructedSimpleMessage
  cases h1 : parseEntry original with
  | error err =>
    cases err
    simp
  | ok message =>
    simp only [Except.ok.injEq, exists_eq_left', false_or, false_implies, and_true,
      exists_and_left, reduceCtorEq]
    cases h2 : parseEntry (content message translation) with
    | error err =>
      cases err
      simp
    | ok ast =>
      simp only [reduceCtorEq, Except.ok.injEq, exists_eq_left', true_and, iff_self]
      intro r hr
      exact hr.symm

/-- C5 at an original that lacks the `=`: the call fails for the translation `"Hello"`. -/
theorem C5_failure_iff_a_parse_fails_witness :
    parser.parseEntry "greeting Hi" = .error .grammarError
      ∧ getReconstructedSimpleMessage parser.parseEntry serializer.serializeEntry
          "greeting Hi" "Hello" = .error .grammarError :=
  ⟨rfl, (C5_failure_iff_a_parse_fails parser.parseEntry serializer.serializeEntry
    "greeting Hi" "").2.2 rfl "Hello"⟩

/-- C6: whenever `getReconstructedSimpleMessage` succeeds, its result `r` is
`serializeEntry` applied to the re-parsed text (not the text built by hand);
and if serializing is idempotent through the parser on the entries the parser
returns, `serializeEntry(parseEntry(serializeEntry(e))) == serializeEntry(e)`,
then `r` is canonical: `serializeEntry(parseEntry(r)) == r`. -/
theorem C6_result_is_canonical
    (parseEntry : String → Except GrammarError Entry) (serializeEntry : Entry → String)
    (original translation r : String)
    (hidem : ∀ source e, parseEntry source = .ok e →
      (parseEntry (serializeEntry e)).map serializeEntry = .ok (serializeEntry e))
    (hr : getReconstructedSimpleMessage parseEntry serializeEntry original translation
      = .ok r) :
    (∃ message ast, parseEntry original = .ok message
        ∧ parseEntry (content message translation) = .ok ast ∧ r = serializeEntry ast)
      ∧ (parseEntry r).map serializeEntry = .ok r := by
  unfold getReconstructedSimpleMessage at hr
  cases h1 : parseEntry original with
  | error err => simp [h1] at hr
  | ok message =>
    simp only [h1] at hr
    cases h2 : parseEntry (content message translation) with
    | error err => simp [h2] at hr
    | ok ast =>
      simp only [h2, Except.ok.injEq] at hr
      subst hr
      exact ⟨⟨message, ast, rfl, h2, rfl⟩, hidem _ ast h2⟩

/-- C6 for the parser and the serializer of the grammar subset, at the
original `-brand-name = Firefox` and the translation `"Zorro"`. -/
theorem C6_result_is_canonical_witness :
    (∀ source e, parser.parseEntry source = .ok e →
        (parser.parseEntry (serializer.serializeEntry e)).map serializer.serializeEntry
          = .ok (serializer.serializeEntry e))
      ∧ getReconstructedSimpleMessage parser.parseEntry serializer.serializeEntry
          "-brand-name = Firefox" "Zorro" = .ok "-brand-name = Zorro"
      ∧ (parser.parseEntry "-brand-name = Zorro").map serializer.serializeEntry
          = .ok "-brand-name = Zorro" :=
  have hidem : ∀ source e, parser.parseEntry source = .ok e →
      (parser.parseEntry (serializer.serializeEntry e)).map serializer.serializeEntry
        = .ok (serializer.serializeEntry e) := by
    intro source e h
    rw [parseEntry_roundtrip source e h]
    rfl
  ⟨hidem, rfl, (C6_result_is_canonical parser.parseEntry serializer.serializeEntry
    "-brand-name = Firefox" "Zorro" "-brand-name = Zorro" hidem rfl).2⟩

/-- C7: for an original that parses to an entry of kind `K` with identifier
`n`, and a translation for which reconstruction succeeds, the reconstructed
text parses to an entry of the same kind and the same identifier, and for a
`Term` the text begins with the sigil `-`. -/
theorem C7_kind_and_identifier_preserved (original translation r : String)
    (message : Entry)
    (hparse : parser.parseEntry original = .ok message)
    (hr : getReconstructedSimpleMessage parser.parseEntry serializer.serializeEntry
      original translation = .ok r) :
    ∃ e, parser.parseEntry r = .ok e ∧ e.type = message.type
      ∧ e.id.name = message.id.name
      ∧ (message.type = "Term" → r.data.head? = some '-') := by
  obtain ⟨ast, h1, h2⟩ := getReconstructedSimpleMessage_ok _ _ _ _ _ _ hparse hr
  obtain ⟨t1, t2⟩ := parse_content_type_id message ast translation
    (parseEntry_wellFormed original message hparse) h1
  subst h2
  refine ⟨ast, parseEntry_roundtrip _ ast h1, t1, t2, ?_⟩
  intro ht
  exact serializeEntry_term_head ast (t1.trans ht)

/-- C7 at the original `-brand-name = Firefox` and the translation `"Zorro"`:
the text returned is `-brand-name = Zorro`, which parses as a `Term` named
`brand-name` with the value `Zorro`. -/
theorem C7_kind_and_identifier_preserved_witness :
    parser.parseEntry "-brand-name = Firefox"
        = .ok ⟨"Term", ⟨"brand-name"⟩, some "Firefox", some []⟩
      ∧ getReconstructedSimpleMessage parser.parseEntry serializer.serializeEntry
          "-brand-name = Firefox" "Zorro" = .ok "-brand-name = Zorro"
      ∧ parser.parseEntry "-brand-name = Zorro"
        = .ok ⟨"Term", ⟨"brand-name"⟩, some "Zorro", some []⟩
      ∧ ∃ e, parser.parseEntry "-brand-name = Zorro" = .ok e ∧ e.type = "Term"
          ∧ e.id.name = "brand-name"
          ∧ ("Term" = "Term" → "-brand-name = Zorro".data.head? = some '-') :=
  ⟨rfl, rfl, rfl, C7_kind_and_identifier_preserved "-brand-name = Firefox" "Zorro"
    "-brand-name = Zorro" ⟨"Term", ⟨"brand-name"⟩, some "Firefox", some []⟩ rfl rfl⟩

/-- C8, as stated, fails: the original `greeting` with the two attributes `a`
and `b` and the translation `"Hi"` give `greeting = Hi`, which parses to an
entry without attributes. -/
theorem C8_two_attributes_dropped :
    parser.parseEntry "greeting =\n    .a = x\n    .b = y"
        = .ok ⟨"Message", ⟨"greeting"⟩, none,
            some [⟨⟨"a"⟩, some "x"⟩, ⟨⟨"b"⟩, some "y"⟩]⟩
      ∧ getReconstructedSimpleMessage parser.parseEntry serializer.serializeEntry
          "greeting =\n    .a = x\n    .b = y" "Hi" = .ok "greeting = Hi"
      ∧ parser.parseEntry "greeting = Hi"
        = .ok ⟨"Message", ⟨"greeting"⟩, some "Hi", some []⟩
      ∧ (([] : List Attribute).map (fun a => a.id.name))
        ≠ ([⟨⟨"a"⟩, some "x"⟩, ⟨⟨"b"⟩, some "y"⟩] : List Attribute).map (fun a => a.id.name) :=
  ⟨rfl, rfl, rfl, by decide⟩

/-- C8, amended: for an original that parses to an entry with exactly one
attribute, or with no attribute when no line of a translation of several lines
starts with `.`, and a translation for which reconstruction succeeds, the
output parses to an entry whose sequence of attribute names is that of the
original; whenever the original does not have exactly one attribute that
output has no attributes. -/
theorem C8_attribute_names_preserved (original translation r : String)
    (message : Entry)
    (hparse : parser.parseEntry original = .ok message)
    (hr : getReconstructedSimpleMessage parser.parseEntry serializer.serializeEntry
      original translation = .ok r)
    (hshape : (∃ a, message.attributes = some [a])
      ∨ ('\n' ∈ translation.data →
          ∀ l ∈ split translation '\n', l.data.head? ≠ some '.')) :
    ∃ e, parser.parseEntry r = .ok e
      ∧ ((∃ a, message.attributes = some [a]) ∨ message.attributes = some [] →
          (e.attributes.getD []).map (fun a => a.id.name)
            = (message.attributes.getD []).map (fun a => a.id.name))
      ∧ ((∀ a, message.attributes ≠ some [a]) → e.attributes = some []) := by
  have hm := parseEntry_wellFormed original message hparse
  obtain ⟨ast, h1, h2⟩ := getReconstructedSimpleMessage_ok _ _ _ _ _ _ hparse hr
  subst h2
  refine ⟨ast, parseEntry_roundtrip _ ast h1, ?_, ?_⟩
  · intro hcase
    by_cases hone : ∃ a, message.attributes = some [a]
    · obtain ⟨a, ha⟩ := hone
      have hw := parse_content_one message ast a translation hm ha h1
      rw [parse_content_eq_intended message ast translation hw h1,
        intended_one message a translation ha, ha]
      rfl
    · have hne : ∀ a, message.attributes ≠ some [a] := fun a ha => hone ⟨a, ha⟩
      have hdot := hshape.resolve_left hone
      have hw := parse_content_other message ast translation hm hne hdot h1
      have hz : message.attributes = some [] := hcase.resolve_left hone
      rw [parse_content_eq_intended message ast translation hw h1,
        intended_other message translation hne, hz]
  · intro hne
    have hdot := hshape.resolve_left (fun ⟨a, ha⟩ => hne a ha)
    have hw := parse_content_other message ast translation hm hne hdot h1
    rw [parse_content_eq_intended message ast translation hw h1,
      intended_other message translation hne]

/-- C8, amended, at the original `greeting` with the one attribute `tooltip`
and the translation `"Line1\nLine2"`. -/
theorem C8_attribute_names_preserved_witness :
    parser.parseEntry "greeting =\n    .tooltip = Hi"
        = .ok ⟨"Message", ⟨"greeting"⟩, none, some [⟨⟨"tooltip"⟩, some "Hi"⟩]⟩
      ∧ getReconstructedSimpleMessage parser.parseEntry serializer.serializeEntry
          "greeting =\n    .tooltip = Hi" "Line1\nLine2"
        = .ok "greeting =\n    .tooltip =\n        Line1\n        Line2"
      ∧ ∃ e, parser.parseEntry "greeting =\n    .tooltip =\n        Line1\n        Line2" = .ok e
          ∧ (e.attributes.getD []).map (fun a => a.id.name) = ["tooltip"] :=
  ⟨rfl, rfl,
    (C8_attribute_names_preserved "greeting =\n    .tooltip = Hi" "Line1\nLine2"
      "greeting =\n    .tooltip =\n        Line1\n        Line2"
      ⟨"Message", ⟨"greeting"⟩, none, some [⟨⟨"tooltip"⟩, some "Hi"⟩]⟩ rfl rfl
      (Or.inl ⟨_, rfl⟩)).imp (fun _ h => ⟨h.1, h.2.1 (Or.inl ⟨_, rfl⟩)⟩)⟩

/-- C9: for an original that parses to an entry with exactly one attribute
named `a`, and a translation `t` of one or more lines that all have text (so
for lines without leading or trailing whitespace and without grammar-special
characters), reconstruction succeeds and the reconstructed text parses to an
entry that has exactly one attribute, named `a`, whose value is `t` (its
lines joined by line breaks), and whose own value is absent. -/
theorem C9_single_attribute_value (original translation : String)
    (message : Entry) (a : Attribute)
    (hparse : parser.parseEntry original = .ok message)
    (hattrs : message.attributes = some [a])
    (hlines : ∀ l ∈ split translation '\n', l ≠ "") :
    ∃ r, getReconstructedSimpleMessage parser.parseEntry serializer.serializeEntry
          original translation = .ok r
      ∧ parser.parseEntry r
        = .ok ⟨message.type, message.id, none, some [⟨a.id, some translation⟩]⟩
      ∧ joinLines (split translation '\n') = translation := by
  have hw := wellFormed_intended_one message a translation
    (parseEntry_wellFormed original message hparse) hattrs hlines
  obtain ⟨h1, h2⟩ := reconstruct_intended original translation message hparse hw
  refine ⟨_, h1, ?_, joinLines_split translation⟩
  rw [h2, intended_one message a translation hattrs]

/-- C9 at the attribute `placeholder` with the translation `"Hello"`, and at
the entry `greeting` with the attribute `tooltip` and the translation
`"Line1\nLine2"`. -/
theorem C9_single_attribute_value_witness :
    (parser.parseEntry "greeting =\n    .placeholder = Hi"
        = .ok ⟨"Message", ⟨"greeting"⟩, none, some [⟨⟨"placeholder"⟩, some "Hi"⟩]⟩
      ∧ (∀ l ∈ split "Hello" '\n', l ≠ "")
      ∧ ∃ r, getReconstructedSimpleMessage parser.parseEntry serializer.serializeEntry
            "greeting =\n    .placeholder = Hi" "Hello" = .ok r
          ∧ parser.parseEntry r
            = .ok ⟨"Message", ⟨"greeting"⟩, none, some [⟨⟨"placeholder"⟩, some "Hello"⟩]⟩
          ∧ joinLines (split "Hello" '\n') = "Hello")
    ∧ (parser.parseEntry "greeting =\n    .tooltip = Hi"
        = .ok ⟨"Message", ⟨"greeting"⟩, none, some [⟨⟨"tooltip"⟩, some "Hi"⟩]⟩
      ∧ (∀ l ∈ split "Line1\nLine2" '\n', l ≠ "")
      ∧ ∃ r, getReconstructedSimpleMessage parser.parseEntry serializer.serializeEntry
            "greeting =\n    .tooltip = Hi" "Line1\nLine2" = .ok r
          ∧ parser.parseEntry r
            = .ok ⟨"Message", ⟨"greeting"⟩, none,
                some [⟨⟨"tooltip"⟩, some "Line1\nLine2"⟩]⟩
          ∧ joinLines (split "Line1\nLine2" '\n') = "Line1\nLine2") :=
  ⟨⟨rfl, by decide, C9_single_attribute_value "greeting =\n    .placeholder = Hi" "Hello"
      ⟨"Message", ⟨"greeting"⟩, none, some [⟨⟨"placeholder"⟩, some "Hi"⟩]⟩
      ⟨⟨"placeholder"⟩, some "Hi"⟩ rfl rfl (by decide)⟩,
    ⟨rfl, by decide, C9_single_attribute_value "greeting =\n    .tooltip = Hi" "Line1\nLine2"
      ⟨"Message", ⟨"greeting"⟩, none, some [⟨⟨"tooltip"⟩, some "Hi"⟩]⟩
      ⟨⟨"tooltip"⟩, some "Hi"⟩ rfl rfl (by decide)⟩⟩

/-- C10: for an original that parses to an entry without attributes and with
identifier `n`, and a multi-line translation `t` whose lines all have text and
do not start with `.` (so for lines without leading or trailing whitespace and
without grammar-special characters), reconstruction succeeds and the
reconstructed text parses to an entry named `n` whose value is the lines of
`t` joined by line breaks and which has no attributes. -/
theorem C10_multiline_value (original translation : String) (message : Entry)
    (hparse : parser.parseEntry original = .ok message)
    (hattrs : message.attributes = some [])
    (hmulti : '\n' ∈ translation.data)
    (hlines : ∀ l ∈ split translation '\n', l ≠ "" ∧ l.data.head? ≠ some '.') :
    ∃ r, getReconstructedSimpleMessage parser.parseEntry serializer.serializeEntry
          original translation = .ok r
      ∧ parser.parseEntry r
        = .ok ⟨message.type, message.id, some (joinLines (split translation '\n')), some []⟩
      ∧ r = key message ++ " ="
          ++ concat ((split translation '\n').map (fun l => "\n" ++ "    " ++ l)) := by
  have hne : ∀ a, message.attributes ≠ some [a] := by
    intro a ha
    rw [hattrs] at ha
    exact absurd ha (by simp)
  have hw := wellFormed_intended_other message translation
    (parseEntry_wellFormed original message hparse) hne
    (fun l hl => ⟨(hlines l hl).1, fun _ => (hlines l hl).2⟩)
  obtain ⟨h1, h2⟩ := reconstruct_intended original translation message hparse hw
  refine ⟨_, h1, ?_, ?_⟩
  · rw [h2, intended_other message translation hne, joinLines_split]
  · rw [← content_eq_serializeEntry, content_other message translation hne, if_pos hmulti]
    rfl

/-- C10 at the entry `greeting` and the translation `"Hello\nWorld"`. -/
theorem C10_multiline_value_witness :
    parser.parseEntry "greeting = Hi" = .ok ⟨"Message", ⟨"greeting"⟩, some "Hi", some []⟩
      ∧ '\n' ∈ "Hello\nWorld".data
      ∧ (∀ l ∈ split "Hello\nWorld" '\n', l ≠ "" ∧ l.data.head? ≠ some '.')
      ∧ ∃ r, getReconstructedSimpleMessage parser.parseEntry serializer.serializeEntry
            "greeting = Hi" "Hello\nWorld" = .ok r
          ∧ parser.parseEntry r
            = .ok ⟨"Message", ⟨"greeting"⟩, some (joinLines ["Hello", "World"]), some []⟩
          ∧ r = "greeting =\n    Hello\n    World" :=
  ⟨rfl, by decide, by decide, C10_multiline_value "greeting = Hi" "Hello\nWorld"
    ⟨"Message", ⟨"greeting"⟩, some "Hi", some []⟩ rfl rfl (by decide) (by decide)⟩

/-- C11: entries with zero attributes and entries with more than one attribute
are handled alike: for two originals that parse to entries of the same kind
and identifier whose attribute counts both differ from one, and for every
translation, `getReconstructedSimpleMessage` builds the same text and returns
the same result, whatever the names, values and number of the attributes. -/
theorem C11_zero_and_many_attributes_alike
    (parseEntry : String → Except GrammarError Entry) (serializeEntry : Entry → String)
    (originalA originalB translation : String) (messageA messageB : Entry)
    (hparseA : parseEntry originalA = .ok messageA)
    (hparseB : parseEntry originalB = .ok messageB)
    (htype : messageA.type = messageB.type)
    (hid : messageA.id.name = messageB.id.name)
    (hcountA : (messageA.attributes.getD []).length ≠ 1)
    (hcountB : (messageB.attributes.getD []).length ≠ 1) :
    content messageA translation = content messageB translation
      ∧ getReconstructedSimpleMessage parseEntry serializeEntry originalA translation
        = getReconstructedSimpleMessage parseEntry serializeEntry originalB translation := by
  have e : content messageA translation = content messageB translation := by
    rw [content_other messageA translation (not_single_of_length messageA hcountA),
      content_other messageB translation (not_single_of_length messageB hcountB),
      key_eq_of_type_id messageA messageB htype hid]
  refine ⟨e, ?_⟩
  rw [getReconstructedSimpleMessage_eq _ _ _ _ _ hparseA,
    getReconstructedSimpleMessage_eq _ _ _ _ _ hparseB, e]

/-- C11 at the original `greeting = Hi`, without attributes, and the original
`greeting` with the two attributes `a` and `b`, for the translation
`"Hello\nWorld"`: both give `greeting =`, `    Hello`, `    World`. -/
theorem C11_zero_and_many_attributes_alike_witness :
    parser.parseEntry "greeting = Hi" = .ok ⟨"Message", ⟨"greeting"⟩, some "Hi", some []⟩
      ∧ parser.parseEntry "greeting =\n    .a = x\n    .b = y"
        = .ok ⟨"Message", ⟨"greeting"⟩, none,
            some [⟨⟨"a"⟩, some "x"⟩, ⟨⟨"b"⟩, some "y"⟩]⟩
      ∧ getReconstructedSimpleMessage parser.parseEntry serializer.serializeEntry
          "greeting = Hi" "Hello\nWorld" = .ok "greeting =\n    Hello\n    World"
      ∧ getReconstructedSimpleMessage parser.parseEntry serializer.serializeEntry
          "greeting = Hi" "Hello\nWorld"
        = getReconstructedSimpleMessage parser.parseEntry serializer.serializeEntry
          "greeting =\n    .a = x\n    .b = y" "Hello\nWorld" :=
  ⟨rfl, rfl, rfl, (C11_zero_and_many_attributes_alike parser.parseEntry
    serializer.serializeEntry "greeting = Hi" "greeting =\n    .a = x\n    .b = y"
    "Hello\nWorld" ⟨"Message", ⟨"greeting"⟩, some "Hi", some []⟩
    ⟨"Message", ⟨"greeting"⟩, none, some [⟨⟨"a"⟩, some "x"⟩, ⟨⟨"b"⟩, some "y"⟩]⟩
    rfl rfl rfl rfl (by decide) (by decide)).2⟩

/-- C12, as stated, fails for the one-attribute text: for the original
`greeting` with the attribute `tooltip` and the translation `"Line1\nLine2"`
the text built has 4 lines, the key line and the attribute line before the two
lines of the translation, not `1 + 1 + 1 = 3`. -/
theorem C12_one_attribute_line_count :
    parser.parseEntry "greeting =\n    .tooltip = Hi"
        = .ok ⟨"Message", ⟨"greeting"⟩, none, some [⟨⟨"tooltip"⟩, some "Hi"⟩]⟩
      ∧ content ⟨"Message", ⟨"greeting"⟩, none, some [⟨⟨"tooltip"⟩, some "Hi"⟩]⟩
          "Line1\nLine2"
        = "greeting =\n    .tooltip =\n        Line1\n        Line2"
      ∧ (split (content ⟨"Message", ⟨"greeting"⟩, none, some [⟨⟨"tooltip"⟩, some "Hi"⟩]⟩
          "Line1\nLine2") '\n').length = 4
      ∧ 1 + "Line1\nLine2".data.count '\n' + 1 = 3 :=
  ⟨rfl, by decide, by decide, by decide⟩

/-- C12, amended: the translation can be read back from the multi-line text
built.  For an original that parses, with display key `k`, and a translation
`t` that contains a line break, the value-level text is `k`, `" =\n    "` and
`t` with every line break replaced by a line break and 4 spaces; it has
`1 + (number of line breaks in t) + 1` lines, and dropping its first line,
removing the first 4 characters of each remaining line and joining by line
breaks gives `t`.  The text of the one-attribute branch is `k`, `" =\n    ."`,
the attribute name, `" =\n        "` and `t` with every line break replaced by
a line break and 8 spaces; it has `2 + (number of line breaks in t) + 1`
lines, and dropping its first two lines, removing the first 8 characters of
each remaining line and joining by line breaks gives `t`. -/
theorem C12_translation_recoverable (original t : String) (message : Entry)
    (hparse : parser.parseEntry original = .ok message)
    (ht : '\n' ∈ t.data) :
    ((∀ a, message.attributes ≠ some [a]) →
        content message t = key message ++ " =\n    " ++ replaceAll t '\n' "\n    "
        ∧ (split (content message t) '\n').length = 1 + t.data.count '\n' + 1
        ∧ joinLines (((split (content message t) '\n').drop 1).map (dropChars 4)) = t)
      ∧ (∀ a, message.attributes = some [a] →
          content message t
              = key message ++ " =\n    ." ++ a.id.name ++ " =\n        "
                ++ replaceAll t '\n' "\n        "
          ∧ (split (content message t) '\n').length = 2 + t.data.count '\n' + 1
          ∧ joinLines (((split (content message t) '\n').drop 2).map (dropChars 8)) = t) := by
  have hk := key_no_newline original message hparse
  have hg := multiline_text_recoverable message t ht
  refine ⟨?_, ?_⟩
  · intro hne
    obtain ⟨h1, h2⟩ := hg.1 hne
    exact ⟨h1, (h2 hk).1, (h2 hk).2⟩
  · intro a ha
    obtain ⟨h1, h2⟩ := hg.2 a ha
    have hn : '\n' ∉ a.id.name.data :=
      validIdentifier_no_newline _
        ((wellFormed_names message (parseEntry_wellFormed original message hparse)).2 a
          (by simp [ha]))
    exact ⟨h1, (h2 hk hn).1, (h2 hk hn).2⟩

/-- C12, amended, at the original `greeting = Hi`, without attributes, and the
translation `"Hello\nWorld"`: the text built has 3 lines and gives the
translation back. -/
theorem C12_translation_recoverable_witness :
    parser.parseEntry "greeting = Hi" = .ok ⟨"Message", ⟨"greeting"⟩, some "Hi", some []⟩
      ∧ '\n' ∈ "Hello\nWorld".data
      ∧ content ⟨"Message", ⟨"greeting"⟩, some "Hi", some []⟩ "Hello\nWorld"
        = "greeting =\n    Hello\n    World"
      ∧ (split "greeting =\n    Hello\n    World" '\n').length = 3
      ∧ joinLines (((split "greeting =\n    Hello\n    World" '\n').drop 1).map
          (dropChars 4)) = "Hello\nWorld" :=
  have h := (C12_translation_recoverable "greeting = Hi" "Hello\nWorld"
    ⟨"Message", ⟨"greeting"⟩, some "Hi", some []⟩ rfl (by decide)).1
      (fun _ h => by simp at h)
  ⟨rfl, by decide, h.1, h.2.1, h.2.2⟩

/-- C13: the code does not do what the claim, and the comment of lines 118-121,
say.  With no status and the one tag `foo` selected, the number of selected
statuses is not one and the icon computed is `tag`, not `all`; with the one
status `translated` and the extra `unchanged` selected, the number of selected
statuses is one and the icon computed is `all`, whatever `FILTERS_STATUS`
holds. -/
theorem C13_icon_counts_all_filters :
    (selectedStatuses ⟨[], [], [("foo", true)], [], [], [⟨"foo", "Foo"⟩]⟩).length = 0
      ∧ (∀ FILTERS_STATUS FILTERS_EXTRA, filterIcon FILTERS_STATUS FILTERS_EXTRA
          ⟨[], [], [("foo", true)], [], [], [⟨"foo", "Foo"⟩]⟩ = "tag")
      ∧ "tag" ≠ "all"
      ∧ selectedStatuses ⟨[("translated", true)], [("unchanged", true)], [], [], [], []⟩
        = ["translated"]
      ∧ (∀ FILTERS_STATUS FILTERS_EXTRA, filterIcon FILTERS_STATUS FILTERS_EXTRA
          ⟨[("translated", true)], [("unchanged", true)], [], [], [], []⟩ = "all")
      ∧ "all" ≠ "translated" := by
  refine ⟨by decide, ?_, by decide, by decide, ?_, by decide⟩
  · intro FILTERS_STATUS FILTERS_EXTRA
    rw [filterIcon_of_count_one _ _ _ (by decide)]
    rfl
  · intro FILTERS_STATUS FILTERS_EXTRA
    exact filterIcon_of_count_ne_one _ _ _ (by decide)

end Pontoon
